import Mathlib

/-!
Shallow embedding of the tween combinator engine of `src/tween.rs`
(crate `be_tween`).

Modelling choices:
* `Duration` becomes `Nat` (a count of time units; `std::time::Duration`
  is a non-negative integer quantity with addition, truncated subtraction
  used only when the minuend is known to be at least the subtrahend,
  comparison, `min` and zero).
* The interpolator capability (`dyn Interpolator`) becomes a function
  `ℚ → ℚ`; the ratio `elapsed.as_secs_f32() / duration.as_secs_f32()`
  becomes the exact rational `elapsed / duration`.
* The applier capability (`dyn TweenApplier<T>`) becomes a function
  `T → ℚ → T` applied to the target.
* The event sink (`EventSender<E>`) becomes an accumulated `List E` of
  the events sent, in order.
* The `error!` diagnostic of the infinite-loop guard becomes a counter
  `warns : Nat` of emitted warning-level diagnostics.
* Mutation of `self` becomes explicit state passing: `skip` and `advance`
  return the updated tween together with the progress report.
-/

set_option maxHeartbeats 1600000
set_option linter.unreachableTactic false
set_option linter.unusedTactic false
set_option linter.unusedVariables false

namespace BeTween

/-- Progress result of one `advance`/`skip` call (`TweenProgress` in
`src/tween.rs`): either still running or done with a surplus duration. -/
inductive TweenProgress where
  | running : TweenProgress
  | done (surplus : Nat) : TweenProgress
deriving DecidableEq, Repr

/-- Repeat policy (`RepeatTimes` in `src/tween.rs`). -/
inductive RepeatTimes where
  | N (count : Nat) : RepeatTimes
  | Infinite : RepeatTimes
deriving DecidableEq, Repr

/-- The recursive timeline tree (`Tween<T, E>` in `src/tween.rs`).
`T` is the target type mutated by appliers, `E` the completion-event
payload type. -/
inductive Tween (T E : Type) where
  | Once (duration elapsed : Nat) (function : ℚ → ℚ) (applier : T → ℚ → T)
      (completed_event : Option E) : Tween T E
  | Repeat (tween : Tween T E) (times : RepeatTimes) (count : Nat)
      (completed_event : Option E) : Tween T E
  | Sequence (index : Nat) (tweens : List (Tween T E))
      (completed_event : Option E) : Tween T E
  | Parallel (tweens : List (Tween T E)) (completed_event : Option E) : Tween T E
  | Pause (duration elapsed : Nat) (completed_event : Option E) : Tween T E

/-- The identity interpolator (`impl Interpolator for Lerp`). -/
def Lerp : ℚ → ℚ := fun p => p

/-- The `done` test at the head of the `Repeat` loop:
`match times { N(amount) => count >= amount, Infinite => false }`. -/
def repeatDone (times : RepeatTimes) (count : Nat) : Bool :=
  match times with
  | .N amount => amount ≤ count
  | .Infinite => false

/-- The fold combining two progress reports in the `Parallel` arm:
`Done(a)`/`Done(b)` combine to `Done(min a b)`, anything else is
`Running`. -/
def combine : TweenProgress → TweenProgress → TweenProgress
  | .done a, .done b => .done (min a b)
  | _, _ => .running

/-- Events sent for an optional completion payload: one send when the
payload is present, none otherwise. -/
def emits {E : Type} : Option E → List E
  | some e => [e]
  | none => []

mutual
/-- Structural size of a tween tree: counts constructors only, ignoring
all mutable counters, so that `skip`, `advance` and `reset` preserve it.
Used as a termination measure. -/
def tsize {T E : Type} : Tween T E → Nat
  | .Once _ _ _ _ _ => 1
  | .Repeat c _ _ _ => tsize c + 2
  | .Sequence _ tws _ => tsizeList tws + 2
  | .Parallel tws _ => tsizeList tws + 2
  | .Pause _ _ _ => 1

def tsizeList {T E : Type} : List (Tween T E) → Nat
  | [] => 0
  | c :: cs => tsize c + tsizeList cs
end

@[simp] theorem tsize_Once {T E : Type} (d e : Nat) (f : ℚ → ℚ) (a : T → ℚ → T)
    (ce : Option E) : tsize (.Once d e f a ce) = 1 := by
  simp [tsize]

@[simp] theorem tsize_Repeat {T E : Type} (c : Tween T E) (tm : RepeatTimes)
    (n : Nat) (ce : Option E) : tsize (.Repeat c tm n ce) = tsize c + 2 := by
  simp [tsize]

@[simp] theorem tsize_Sequence {T E : Type} (i : Nat) (tws : List (Tween T E))
    (ce : Option E) : tsize (.Sequence i tws ce) = tsizeList tws + 2 := by
  simp [tsize]

@[simp] theorem tsize_Parallel {T E : Type} (tws : List (Tween T E))
    (ce : Option E) : tsize (.Parallel tws ce) = tsizeList tws + 2 := by
  simp [tsize]

@[simp] theorem tsize_Pause {T E : Type} (d e : Nat) (ce : Option E) :
    tsize (Tween.Pause (T := T) d e ce) = 1 := by
  simp [tsize]

@[simp] theorem tsizeList_nil {T E : Type} : tsizeList ([] : List (Tween T E)) = 0 := by
  simp [tsizeList]

@[simp] theorem tsizeList_cons {T E : Type} (c : Tween T E) (cs : List (Tween T E)) :
    tsizeList (c :: cs) = tsize c + tsizeList cs := by
  simp [tsizeList]

theorem tsize_pos {T E : Type} (t : Tween T E) : 0 < tsize t := by
  cases t <;> simp

theorem tsizeList_append {T E : Type} (l1 l2 : List (Tween T E)) :
    tsizeList (l1 ++ l2) = tsizeList l1 + tsizeList l2 := by
  induction l1 with
  | nil => simp
  | cons c cs ih => simp [ih]; omega

theorem tsizeList_take_le {T E : Type} (l : List (Tween T E)) (n : Nat) :
    tsizeList (l.take n) ≤ tsizeList l := by
  induction l generalizing n with
  | nil => simp
  | cons c cs ih =>
    cases n with
    | zero => simp
    | succ m =>
      simp only [List.take_succ_cons, tsizeList_cons]
      have := ih m
      omega

theorem tsizeList_drop_le {T E : Type} (l : List (Tween T E)) (n : Nat) :
    tsizeList (l.drop n) ≤ tsizeList l := by
  induction l generalizing n with
  | nil => simp
  | cons c cs ih =>
    cases n with
    | zero => simp
    | succ m =>
      simp only [List.drop_succ_cons, tsizeList_cons]
      have := ih m
      have := tsize_pos c
      omega

theorem tsizeList_take_drop {T E : Type} (l : List (Tween T E)) (n : Nat) :
    tsizeList (l.take n) + tsizeList (l.drop n) = tsizeList l := by
  induction l generalizing n with
  | nil => simp
  | cons c cs ih =>
    cases n with
    | zero => simp
    | succ m =>
      simp only [List.take_succ_cons, List.drop_succ_cons, tsizeList_cons]
      have := ih m
      omega


theorem measure_seq_take {T E : Type} (l : List (Tween T E)) (n : Nat) :
    2 * tsizeList (l.take n) + 1 < 2 * (tsizeList l + 2) := by
  have := tsizeList_take_le l n; omega

theorem measure_seq_drop {T E : Type} (l : List (Tween T E)) (n : Nat) :
    2 * tsizeList (l.drop n) + 1 < 2 * (tsizeList l + 2) := by
  have := tsizeList_drop_le l n; omega

theorem measure_cons_tail {T E : Type} (c : Tween T E) (cs : List (Tween T E)) :
    2 * tsizeList cs + 1 < 2 * tsizeList (c :: cs) + 1 := by
  have := tsize_pos c; simp; omega

theorem measure_cons_tail2 {T E : Type} (c : Tween T E) (cs : List (Tween T E)) :
    2 * tsizeList cs + 1 < 2 * (tsize c + tsizeList cs) + 1 := by
  have := tsize_pos c; omega

theorem measure_cons_head {T E : Type} (c : Tween T E) (cs : List (Tween T E)) :
    2 * tsize c < 2 * tsizeList (c :: cs) + 1 := by
  simp; omega

mutual
/-- Rewind a tween subtree to its start (`Tween::reset` in
`src/tween.rs`): zero the clock of a leaf, zero a `Repeat` count and
reset its child, reset the first `index` children of a `Sequence` and
zero its cursor, reset every child of a `Parallel`. -/
def reset {T E : Type} : Tween T E → Tween T E
  | .Once d _ f a ce => .Once d 0 f a ce
  | .Repeat c tm _ ce => .Repeat (reset c) tm 0 ce
  | .Sequence i tws ce => .Sequence 0 (resetList (tws.take i) ++ tws.drop i) ce
  | .Parallel tws ce => .Parallel (resetList tws) ce
  | .Pause d _ ce => .Pause d 0 ce
termination_by t => 2 * tsize t
decreasing_by
  all_goals simp_wf
  all_goals first
    | omega
    | exact measure_seq_take _ _
    | exact measure_cons_tail _ _
    | exact measure_cons_tail2 _ _
    | exact measure_cons_head _ _
    | exact tsize_pos _
    | (simp only [tsizeList_cons]; omega)

/-- One-by-one reset of a list of tweens (the `iter_mut` loops in the
`Sequence` and `Parallel` arms of `Tween::reset`). -/
def resetList {T E : Type} : List (Tween T E) → List (Tween T E)
  | [] => []
  | c :: cs => reset c :: resetList cs
termination_by l => 2 * tsizeList l + 1
decreasing_by
  all_goals simp_wf
  all_goals first
    | omega
    | exact measure_seq_take _ _
    | exact measure_cons_tail _ _
    | exact measure_cons_tail2 _ _
    | exact measure_cons_head _ _
    | exact tsize_pos _
    | (simp only [tsizeList_cons]; omega)
end

@[simp] theorem reset_Once {T E : Type} (d e : Nat) (f : ℚ → ℚ) (a : T → ℚ → T)
    (ce : Option E) : reset (.Once d e f a ce) = .Once d 0 f a ce := by
  simp [reset]

@[simp] theorem reset_Repeat {T E : Type} (c : Tween T E) (tm : RepeatTimes)
    (n : Nat) (ce : Option E) :
    reset (.Repeat c tm n ce) = .Repeat (reset c) tm 0 ce := by
  rw [reset]

@[simp] theorem reset_Sequence {T E : Type} (i : Nat) (tws : List (Tween T E))
    (ce : Option E) :
    reset (.Sequence i tws ce) = .Sequence 0 (resetList (tws.take i) ++ tws.drop i) ce := by
  rw [reset]

@[simp] theorem reset_Parallel {T E : Type} (tws : List (Tween T E))
    (ce : Option E) : reset (.Parallel tws ce) = .Parallel (resetList tws) ce := by
  rw [reset]

@[simp] theorem reset_Pause {T E : Type} (d e : Nat) (ce : Option E) :
    reset (Tween.Pause (T := T) d e ce) = .Pause d 0 ce := by
  simp [reset]

@[simp] theorem resetList_nil {T E : Type} : resetList ([] : List (Tween T E)) = [] := by
  simp [resetList]

@[simp] theorem resetList_cons {T E : Type} (c : Tween T E) (cs : List (Tween T E)) :
    resetList (c :: cs) = reset c :: resetList cs := by
  simp [resetList]

theorem resetList_append {T E : Type} (l1 l2 : List (Tween T E)) :
    resetList (l1 ++ l2) = resetList l1 ++ resetList l2 := by
  induction l1 with
  | nil => simp
  | cons c cs ih => simp [ih]

mutual
theorem tsize_reset {T E : Type} (t : Tween T E) : tsize (reset t) = tsize t := by
  cases t with
  | Once d e f a ce => simp
  | Repeat c tm n ce => simp [tsize_reset c]
  | Sequence i tws ce =>
    simp [tsizeList_append, tsizeList_reset (tws.take i)]
    have := tsizeList_take_drop tws i
    omega
  | Parallel tws ce => simp [tsizeList_reset tws]
  | Pause d e ce => simp
termination_by 2 * tsize t
decreasing_by
  all_goals simp_wf
  all_goals first
    | omega
    | exact measure_seq_take _ _
    | exact measure_cons_tail _ _
    | exact measure_cons_tail2 _ _
    | exact measure_cons_head _ _
    | exact tsize_pos _
    | (simp only [tsizeList_cons]; omega)

theorem tsizeList_reset {T E : Type} (l : List (Tween T E)) :
    tsizeList (resetList l) = tsizeList l := by
  cases l with
  | nil => simp
  | cons c cs => simp [tsize_reset c, tsizeList_reset cs]
termination_by 2 * tsizeList l + 1
decreasing_by
  all_goals simp_wf
  all_goals first
    | omega
    | exact measure_seq_take _ _
    | exact measure_cons_tail _ _
    | exact measure_cons_tail2 _ _
    | exact measure_cons_head _ _
    | exact tsize_pos _
    | (simp only [tsizeList_cons]; omega)
end


/-- Result of one `Tween::skip` call: the updated tween, the number of
warning-level diagnostics reported, and the progress. -/
structure SkipOut (T E : Type) where
  tween : Tween T E
  warns : Nat
  progress : TweenProgress

/-- Result of driving a suffix of a `Sequence` child list: the updated
children, how many of them completed (the cursor increment), warnings and
the progress of the loop. -/
structure SeqOut (T E : Type) where
  tweens : List (Tween T E)
  moved : Nat
  warns : Nat
  progress : TweenProgress

/-- Result of driving the child list of a `Parallel` node: the updated
children, warnings and the per-child progress reports in child order. -/
structure ParOut (T E : Type) where
  tweens : List (Tween T E)
  warns : Nat
  results : List TweenProgress

/-- Loop measure for the `Repeat` arm: for policy `N(a)` the number of
remaining child completions, for `Infinite` the current input duration
(which strictly shrinks whenever the loop continues). -/
def loopM : RepeatTimes → Nat → Nat → Nat
  | .N a, count, _ => a - count
  | .Infinite, _, dur => dur

theorem loopM_dec (times : RepeatTimes) (count dur surplus : Nat)
    (hdn : ¬ repeatDone times count = true)
    (hg : ¬ (dur ≤ surplus ∧ times = .Infinite)) :
    loopM times (count + 1) surplus < loopM times count dur := by
  cases times with
  | N a => simp [repeatDone] at hdn; simp [loopM]; omega
  | Infinite => simp at hg; simp [loopM]; omega

mutual
/-- The `Tween::skip` operation of `src/tween.rs` (value part plus the
invariant that the tree keeps its structural size, which justifies the
termination of the `Repeat` loop). Advances clocks and cursors exactly
like `advance` but never touches a target and never emits events. -/
def skipAux {T E : Type} : (t : Tween T E) → Nat → { o : SkipOut T E // tsize o.tween = tsize t }
  | .Once d e f a ce, dur =>
    if d ≤ e + dur then
      ⟨⟨.Once d d f a ce, 0, .done (e + dur - d)⟩, by simp⟩
    else
      ⟨⟨.Once d (e + dur) f a ce, 0, .running⟩, by simp⟩
  | .Repeat c times count ce, dur =>
    let r := skipRepeat c times count ce dur
    ⟨r.1, by rw [r.2]; simp⟩
  | .Sequence i tws ce, dur =>
    let r := skipSeqAux (tws.drop i) dur
    ⟨⟨.Sequence (i + r.1.moved) (tws.take i ++ r.1.tweens) ce, r.1.warns, r.1.progress⟩, by
      simp only [tsize_Sequence, tsizeList_append, r.2.1]
      have := tsizeList_take_drop tws i
      omega⟩
  | .Parallel tws ce, dur =>
    let r := skipParAux tws dur
    ⟨⟨.Parallel r.1.tweens ce, r.1.warns, r.1.results.foldl combine (.done dur)⟩, by
      simp only [tsize_Parallel, r.2.1]⟩
  | .Pause d e ce, dur =>
    if d ≤ e + dur then
      ⟨⟨.Pause d d ce, 0, .done (e + dur - d)⟩, by simp⟩
    else
      ⟨⟨.Pause d (e + dur) ce, 0, .running⟩, by simp⟩
termination_by t dur => (2 * tsize t, 0)
decreasing_by
  all_goals simp_wf
  all_goals apply Prod.Lex.left
  all_goals first
    | omega
    | (simp; omega)
    | (have h1 := tsize_pos c; simp; omega)
    | (have h1 := tsize_pos c; omega)
    | (have h1 := tsizeList_drop_le tws i; simp; omega)
    | (have h1 := tsizeList_drop_le tws i; omega)

/-- The loop of the `Repeat` arm of `Tween::skip`: check the policy,
skip the child, on completion increment the count, possibly trip the
infinite-loop guard, otherwise reset the child and re-enter with the
surplus as the new input duration. -/
def skipRepeat {T E : Type} : (c : Tween T E) → RepeatTimes → Nat → Option E → Nat →
    { o : SkipOut T E // tsize o.tween = tsize c + 2 }
  | c, times, count, ce, dur =>
    if hdn : repeatDone times count then
      ⟨⟨.Repeat c times count ce, 0, .done dur⟩, by simp⟩
    else
      match skipAux c dur with
      | ⟨⟨c2, w, .done surplus⟩, hp⟩ =>
        if hg : dur ≤ surplus ∧ times = .Infinite then
          ⟨⟨.Repeat c2 times (count + 1) ce, w + 1, .running⟩, by
            have h2 : tsize c2 = tsize c := by simpa using hp
            simp [h2]⟩
        else
          let r := skipRepeat (reset c2) times (count + 1) ce surplus
          ⟨⟨r.1.tween, w + r.1.warns, r.1.progress⟩, by
            have h2 : tsize c2 = tsize c := by simpa using hp
            have h3 := r.2
            simp only at h3 ⊢
            rw [h3, tsize_reset, h2]⟩
      | ⟨⟨c2, w, .running⟩, hp⟩ =>
        ⟨⟨.Repeat c2 times count ce, w, .running⟩, by
          have h2 : tsize c2 = tsize c := by simpa using hp
          simp [h2]⟩
termination_by c times count ce dur => (2 * tsize c + 1, loopM times count dur)
decreasing_by
  · apply Prod.Lex.left; omega
  · have h2 : tsize c2 = tsize c := by simpa using hp
    have h3 : 2 * tsize (reset c2) + 1 = 2 * tsize c + 1 := by rw [tsize_reset, h2]
    rw [h3]
    exact Prod.Lex.right _ (loopM_dec times count dur surplus hdn hg)

/-- The while-loop of the `Sequence` arm of `Tween::skip`, acting on the
suffix of the child list starting at the cursor: skip children in order,
feeding each surplus to the next child, stopping at the first `Running`. -/
def skipSeqAux {T E : Type} : (l : List (Tween T E)) → Nat →
    { o : SeqOut T E // tsizeList o.tweens = tsizeList l ∧
        o.tweens.length = l.length ∧ o.moved ≤ l.length }
  | [], dur => ⟨⟨[], 0, 0, .done dur⟩, by simp⟩
  | c :: cs, dur =>
    match skipAux c dur with
    | ⟨⟨c2, w, .done surplus⟩, hp⟩ =>
      let r := skipSeqAux cs surplus
      ⟨⟨c2 :: r.1.tweens, r.1.moved + 1, w + r.1.warns, r.1.progress⟩, by
        have h2 : tsize c2 = tsize c := by simpa using hp
        refine ⟨by simp [h2, r.2.1], by simp [r.2.2.1], ?_⟩
        have := r.2.2.2
        simp
        omega⟩
    | ⟨⟨c2, w, .running⟩, hp⟩ =>
      ⟨⟨c2 :: cs, 0, w, .running⟩, by
        have h2 : tsize c2 = tsize c := by simpa using hp
        simp [h2]⟩
termination_by l dur => (2 * tsizeList l + 1, 0)
decreasing_by
  · apply Prod.Lex.left; have := tsize_pos c; simp; omega
  · apply Prod.Lex.left; have := tsize_pos c; simp; omega

/-- The fold of the `Parallel` arm of `Tween::skip`: skip every child
with the same input duration, collecting the updated children and the
per-child progress reports in order. -/
def skipParAux {T E : Type} : (l : List (Tween T E)) → Nat →
    { o : ParOut T E // tsizeList o.tweens = tsizeList l ∧
        o.tweens.length = l.length ∧ o.results.length = l.length }
  | [], _ => ⟨⟨[], 0, []⟩, by simp⟩
  | c :: cs, dur =>
    let o := skipAux c dur
    let r := skipParAux cs dur
    ⟨⟨o.1.tween :: r.1.tweens, o.1.warns + r.1.warns, o.1.progress :: r.1.results⟩, by
      simp [o.2, r.2.1, r.2.2.1, r.2.2.2]⟩
termination_by l dur => (2 * tsizeList l + 1, 0)
decreasing_by
  · apply Prod.Lex.left; have := tsize_pos c; simp; omega
  · apply Prod.Lex.left; have := tsize_pos c; simp; omega
end

/-- The `Tween::skip` operation of `src/tween.rs`: fast-forward the
clock state, reporting progress, without applying any effect to a target
and without emitting completion events. -/
def skip {T E : Type} (t : Tween T E) (dur : Nat) : SkipOut T E :=
  (skipAux t dur).1

theorem tsize_skip {T E : Type} (t : Tween T E) (dur : Nat) :
    tsize (skip t dur).tween = tsize t :=
  (skipAux t dur).2


/-- Result of one `Tween::advance` call: the updated tween, the mutated
target, the completion events sent to the sink in order, the number of
warning-level diagnostics, and the progress. -/
structure AdvOut (T E : Type) where
  tween : Tween T E
  target : T
  events : List E
  warns : Nat
  progress : TweenProgress

/-- Result of driving a suffix of a `Sequence` child list with
`advance`. -/
structure ASeqOut (T E : Type) where
  tweens : List (Tween T E)
  target : T
  events : List E
  moved : Nat
  warns : Nat
  progress : TweenProgress

/-- Result of driving the child list of a `Parallel` node with
`advance`. -/
structure AParOut (T E : Type) where
  tweens : List (Tween T E)
  target : T
  events : List E
  warns : Nat
  results : List TweenProgress

/-- Completion events contributed by a node when a loop or fold has
produced progress `p`: its own payload on `Done`, nothing on `Running`. -/
def doneEmits {E : Type} (p : TweenProgress) (ce : Option E) : List E :=
  match p with
  | .done _ => emits ce
  | .running => []

mutual
/-- The `Tween::advance` operation of `src/tween.rs` (value part plus
the structural-size invariant justifying termination of the `Repeat`
loop): advance clocks, apply appliers to the target, emit completion
events, report progress. -/
def advAux {T E : Type} : (t : Tween T E) → T → Nat → { o : AdvOut T E // tsize o.tween = tsize t }
  | .Once d e f a ce, tgt, dur =>
    if d ≤ e + dur then
      ⟨⟨.Once d d f a ce, a tgt (f ((d : ℚ) / (d : ℚ))), emits ce, 0,
        .done (e + dur - d)⟩, by simp⟩
    else
      ⟨⟨.Once d (e + dur) f a ce, a tgt (f (((e + dur : Nat) : ℚ) / (d : ℚ))), [], 0,
        .running⟩, by simp⟩
  | .Repeat c times count ce, tgt, dur =>
    let r := advRepeat c times count ce tgt dur
    ⟨r.1, by rw [r.2]; simp⟩
  | .Sequence i tws ce, tgt, dur =>
    let r := advSeqAux (tws.drop i) tgt dur
    ⟨⟨.Sequence (i + r.1.moved) (tws.take i ++ r.1.tweens) ce, r.1.target,
      r.1.events ++ doneEmits r.1.progress ce, r.1.warns, r.1.progress⟩, by
      simp only [tsize_Sequence, tsizeList_append, r.2.1]
      have := tsizeList_take_drop tws i
      omega⟩
  | .Parallel tws ce, tgt, dur =>
    let r := advParAux tws tgt dur
    let res := r.1.results.foldl combine (.done dur)
    ⟨⟨.Parallel r.1.tweens ce, r.1.target, r.1.events ++ doneEmits res ce,
      r.1.warns, res⟩, by
      simp only [tsize_Parallel, r.2.1]⟩
  | .Pause d e ce, tgt, dur =>
    if d ≤ e + dur then
      ⟨⟨.Pause d d ce, tgt, emits ce, 0, .done (e + dur - d)⟩, by simp⟩
    else
      ⟨⟨.Pause d (e + dur) ce, tgt, [], 0, .running⟩, by simp⟩
termination_by t tgt dur => (2 * tsize t, 0)
decreasing_by
  all_goals simp_wf
  all_goals apply Prod.Lex.left
  all_goals first
    | omega
    | (simp; omega)
    | (have h1 := tsize_pos c; simp; omega)
    | (have h1 := tsize_pos c; omega)
    | (have h1 := tsizeList_drop_le tws i; simp; omega)
    | (have h1 := tsizeList_drop_le tws i; omega)

/-- The loop of the `Repeat` arm of `Tween::advance`. -/
def advRepeat {T E : Type} : (c : Tween T E) → RepeatTimes → Nat → Option E → T → Nat →
    { o : AdvOut T E // tsize o.tween = tsize c + 2 }
  | c, times, count, ce, tgt, dur =>
    if hdn : repeatDone times count then
      ⟨⟨.Repeat c times count ce, tgt, emits ce, 0, .done dur⟩, by simp⟩
    else
      match advAux c tgt dur with
      | ⟨⟨c2, tgt2, evs, w, .done surplus⟩, hp⟩ =>
        if hg : dur ≤ surplus ∧ times = .Infinite then
          ⟨⟨.Repeat c2 times (count + 1) ce, tgt2, evs, w + 1, .running⟩, by
            have h2 : tsize c2 = tsize c := by simpa using hp
            simp [h2]⟩
        else
          let r := advRepeat (reset c2) times (count + 1) ce tgt2 surplus
          ⟨⟨r.1.tween, r.1.target, evs ++ r.1.events, w + r.1.warns, r.1.progress⟩, by
            have h2 : tsize c2 = tsize c := by simpa using hp
            have h3 := r.2
            simp only at h3 ⊢
            rw [h3, tsize_reset, h2]⟩
      | ⟨⟨c2, tgt2, evs, w, .running⟩, hp⟩ =>
        ⟨⟨.Repeat c2 times count ce, tgt2, evs, w, .running⟩, by
          have h2 : tsize c2 = tsize c := by simpa using hp
          simp [h2]⟩
termination_by c times count ce tgt dur => (2 * tsize c + 1, loopM times count dur)
decreasing_by
  · apply Prod.Lex.left; omega
  · have h2 : tsize c2 = tsize c := by simpa using hp
    have h3 : 2 * tsize (reset c2) + 1 = 2 * tsize c + 1 := by rw [tsize_reset, h2]
    rw [h3]
    exact Prod.Lex.right _ (loopM_dec times count dur surplus hdn hg)

/-- The while-loop of the `Sequence` arm of `Tween::advance`. -/
def advSeqAux {T E : Type} : (l : List (Tween T E)) → T → Nat →
    { o : ASeqOut T E // tsizeList o.tweens = tsizeList l ∧
        o.tweens.length = l.length ∧ o.moved ≤ l.length }
  | [], tgt, dur => ⟨⟨[], tgt, [], 0, 0, .done dur⟩, by simp⟩
  | c :: cs, tgt, dur =>
    match advAux c tgt dur with
    | ⟨⟨c2, tgt2, evs, w, .done surplus⟩, hp⟩ =>
      let r := advSeqAux cs tgt2 surplus
      ⟨⟨c2 :: r.1.tweens, r.1.target, evs ++ r.1.events, r.1.moved + 1,
        w + r.1.warns, r.1.progress⟩, by
        have h2 : tsize c2 = tsize c := by simpa using hp
        refine ⟨by simp [h2, r.2.1], by simp [r.2.2.1], ?_⟩
        have := r.2.2.2
        simp
        omega⟩
    | ⟨⟨c2, tgt2, evs, w, .running⟩, hp⟩ =>
      ⟨⟨c2 :: cs, tgt2, evs, 0, w, .running⟩, by
        have h2 : tsize c2 = tsize c := by simpa using hp
        simp [h2]⟩
termination_by l tgt dur => (2 * tsizeList l + 1, 0)
decreasing_by
  · apply Prod.Lex.left; have := tsize_pos c; simp; omega
  · apply Prod.Lex.left; have := tsize_pos c; simp; omega

/-- The fold of the `Parallel` arm of `Tween::advance`: every child is
advanced exactly once with the same input duration, in child order, the
target threading through the children. -/
def advParAux {T E : Type} : (l : List (Tween T E)) → T → Nat →
    { o : AParOut T E // tsizeList o.tweens = tsizeList l ∧
        o.tweens.length = l.length ∧ o.results.length = l.length }
  | [], tgt, _ => ⟨⟨[], tgt, [], 0, []⟩, by simp⟩
  | c :: cs, tgt, dur =>
    let o := advAux c tgt dur
    let r := advParAux cs o.1.target dur
    ⟨⟨o.1.tween :: r.1.tweens, r.1.target, o.1.events ++ r.1.events,
      o.1.warns + r.1.warns, o.1.progress :: r.1.results⟩, by
      simp [o.2, r.2.1, r.2.2.1, r.2.2.2]⟩
termination_by l tgt dur => (2 * tsizeList l + 1, 0)
decreasing_by
  · apply Prod.Lex.left; have := tsize_pos c; simp; omega
  · apply Prod.Lex.left; have := tsize_pos c; simp; omega
end

/-- The `Tween::advance` operation of `src/tween.rs`. -/
def advance {T E : Type} (t : Tween T E) (tgt : T) (dur : Nat) : AdvOut T E :=
  (advAux t tgt dur).1

theorem tsize_advance {T E : Type} (t : Tween T E) (tgt : T) (dur : Nat) :
    tsize (advance t tgt dur).tween = tsize t :=
  (advAux t tgt dur).2


theorem skip_Once {T E : Type} (d e : Nat) (f : ℚ → ℚ) (a : T → ℚ → T)
    (ce : Option E) (dur : Nat) :
    skip (.Once d e f a ce) dur =
      if d ≤ e + dur then ⟨.Once d d f a ce, 0, .done (e + dur - d)⟩
      else ⟨.Once d (e + dur) f a ce, 0, .running⟩ := by
  simp only [skip, skipAux]
  split <;> rfl

theorem skip_Pause {T E : Type} (d e : Nat) (ce : Option E) (dur : Nat) :
    skip (Tween.Pause (T := T) d e ce) dur =
      if d ≤ e + dur then ⟨.Pause d d ce, 0, .done (e + dur - d)⟩
      else ⟨.Pause d (e + dur) ce, 0, .running⟩ := by
  simp only [skip, skipAux]
  split <;> rfl

theorem skip_Repeat {T E : Type} (c : Tween T E) (times : RepeatTimes)
    (count : Nat) (ce : Option E) (dur : Nat) :
    skip (.Repeat c times count ce) dur = (skipRepeat c times count ce dur).1 := by
  simp only [skip, skipAux]

theorem skip_Sequence {T E : Type} (i : Nat) (tws : List (Tween T E))
    (ce : Option E) (dur : Nat) :
    skip (.Sequence i tws ce) dur =
      ⟨.Sequence (i + (skipSeqAux (tws.drop i) dur).1.moved)
        (tws.take i ++ (skipSeqAux (tws.drop i) dur).1.tweens) ce,
        (skipSeqAux (tws.drop i) dur).1.warns,
        (skipSeqAux (tws.drop i) dur).1.progress⟩ := by
  simp only [skip, skipAux]

theorem skip_Parallel {T E : Type} (tws : List (Tween T E)) (ce : Option E)
    (dur : Nat) :
    skip (.Parallel tws ce) dur =
      ⟨.Parallel (skipParAux tws dur).1.tweens ce, (skipParAux tws dur).1.warns,
        (skipParAux tws dur).1.results.foldl combine (.done dur)⟩ := by
  simp only [skip, skipAux]

theorem skipRepeat_done {T E : Type} {c : Tween T E} {times : RepeatTimes}
    {count : Nat} (ce : Option E) (dur : Nat)
    (hdn : repeatDone times count = true) :
    (skipRepeat c times count ce dur).1 = ⟨.Repeat c times count ce, 0, .done dur⟩ := by
  rw [skipRepeat]
  rw [dif_pos hdn]

theorem skipRepeat_running {T E : Type} {c : Tween T E} {times : RepeatTimes}
    {count : Nat} (ce : Option E) {dur : Nat}
    (hdn : ¬ repeatDone times count = true)
    (hrun : (skip c dur).progress = .running) :
    (skipRepeat c times count ce dur).1 =
      ⟨.Repeat (skip c dur).tween times count ce, (skip c dur).warns, .running⟩ := by
  rw [skipRepeat]
  rw [dif_neg hdn]
  rcases hsk : skipAux c dur with ⟨⟨c2, w, pr⟩, hp⟩
  have hv : skip c dur = ⟨c2, w, pr⟩ := by rw [skip, hsk]
  rw [hv] at hrun
  simp only at hrun
  subst hrun
  simp [hv]

theorem skipRepeat_guard {T E : Type} {c : Tween T E} {times : RepeatTimes}
    {count : Nat} (ce : Option E) {dur s : Nat}
    (hdn : ¬ repeatDone times count = true)
    (hdone : (skip c dur).progress = .done s)
    (hg : dur ≤ s ∧ times = .Infinite) :
    (skipRepeat c times count ce dur).1 =
      ⟨.Repeat (skip c dur).tween times (count + 1) ce, (skip c dur).warns + 1,
        .running⟩ := by
  rw [skipRepeat]
  rw [dif_neg hdn]
  rcases hsk : skipAux c dur with ⟨⟨c2, w, pr⟩, hp⟩
  have hv : skip c dur = ⟨c2, w, pr⟩ := by rw [skip, hsk]
  rw [hv] at hdone
  simp only at hdone
  subst hdone
  simp only
  rw [dif_pos hg]
  simp [hv]

theorem skipRepeat_loop {T E : Type} {c : Tween T E} {times : RepeatTimes}
    {count : Nat} (ce : Option E) {dur s : Nat}
    (hdn : ¬ repeatDone times count = true)
    (hdone : (skip c dur).progress = .done s)
    (hg : ¬ (dur ≤ s ∧ times = .Infinite)) :
    (skipRepeat c times count ce dur).1 =
      ⟨(skipRepeat (reset (skip c dur).tween) times (count + 1) ce s).1.tween,
        (skip c dur).warns +
          (skipRepeat (reset (skip c dur).tween) times (count + 1) ce s).1.warns,
        (skipRepeat (reset (skip c dur).tween) times (count + 1) ce s).1.progress⟩ := by
  rw [skipRepeat]
  rw [dif_neg hdn]
  rcases hsk : skipAux c dur with ⟨⟨c2, w, pr⟩, hp⟩
  have hv : skip c dur = ⟨c2, w, pr⟩ := by rw [skip, hsk]
  rw [hv] at hdone
  simp only at hdone
  subst hdone
  simp only
  rw [dif_neg hg]
  have ht : (skip c dur).tween = c2 := by rw [hv]
  have hw : (skip c dur).warns = w := by rw [hv]
  rw [ht, hw]

theorem skipSeqAux_nil {T E : Type} (dur : Nat) :
    (skipSeqAux ([] : List (Tween T E)) dur).1 = ⟨[], 0, 0, .done dur⟩ := by
  rw [skipSeqAux]

theorem skipSeqAux_cons_done {T E : Type} {c : Tween T E} {cs : List (Tween T E)}
    {dur s : Nat} (hdone : (skip c dur).progress = .done s) :
    (skipSeqAux (c :: cs) dur).1 =
      ⟨(skip c dur).tween :: (skipSeqAux cs s).1.tweens,
        (skipSeqAux cs s).1.moved + 1,
        (skip c dur).warns + (skipSeqAux cs s).1.warns,
        (skipSeqAux cs s).1.progress⟩ := by
  rw [skipSeqAux]
  rcases hsk : skipAux c dur with ⟨⟨c2, w, pr⟩, hp⟩
  have hv : skip c dur = ⟨c2, w, pr⟩ := by rw [skip, hsk]
  rw [hv] at hdone
  simp only at hdone
  subst hdone
  simp [hv]

theorem skipSeqAux_cons_running {T E : Type} {c : Tween T E} {cs : List (Tween T E)}
    {dur : Nat} (hrun : (skip c dur).progress = .running) :
    (skipSeqAux (c :: cs) dur).1 =
      ⟨(skip c dur).tween :: cs, 0, (skip c dur).warns, .running⟩ := by
  rw [skipSeqAux]
  rcases hsk : skipAux c dur with ⟨⟨c2, w, pr⟩, hp⟩
  have hv : skip c dur = ⟨c2, w, pr⟩ := by rw [skip, hsk]
  rw [hv] at hrun
  simp only at hrun
  subst hrun
  simp [hv]

theorem skipParAux_nil {T E : Type} (dur : Nat) :
    (skipParAux ([] : List (Tween T E)) dur).1 = ⟨[], 0, []⟩ := by
  rw [skipParAux]

theorem skipParAux_cons {T E : Type} (c : Tween T E) (cs : List (Tween T E))
    (dur : Nat) :
    (skipParAux (c :: cs) dur).1 =
      ⟨(skip c dur).tween :: (skipParAux cs dur).1.tweens,
        (skip c dur).warns + (skipParAux cs dur).1.warns,
        (skip c dur).progress :: (skipParAux cs dur).1.results⟩ := by
  rw [skipParAux]
  rfl


theorem advance_Once {T E : Type} (d e : Nat) (f : ℚ → ℚ) (a : T → ℚ → T)
    (ce : Option E) (tgt : T) (dur : Nat) :
    advance (.Once d e f a ce) tgt dur =
      if d ≤ e + dur then
        ⟨.Once d d f a ce, a tgt (f ((d : ℚ) / (d : ℚ))), emits ce, 0,
          .done (e + dur - d)⟩
      else
        ⟨.Once d (e + dur) f a ce, a tgt (f (((e + dur : Nat) : ℚ) / (d : ℚ))), [], 0,
          .running⟩ := by
  simp only [advance, advAux]
  split <;> rfl

theorem advance_Pause {T E : Type} (d e : Nat) (ce : Option E) (tgt : T) (dur : Nat) :
    advance (Tween.Pause (T := T) (E := E) d e ce) tgt dur =
      if d ≤ e + dur then ⟨.Pause d d ce, tgt, emits ce, 0, .done (e + dur - d)⟩
      else ⟨.Pause d (e + dur) ce, tgt, [], 0, .running⟩ := by
  simp only [advance, advAux]
  split <;> rfl

theorem advance_Repeat {T E : Type} (c : Tween T E) (times : RepeatTimes)
    (count : Nat) (ce : Option E) (tgt : T) (dur : Nat) :
    advance (.Repeat c times count ce) tgt dur = (advRepeat c times count ce tgt dur).1 := by
  simp only [advance, advAux]

theorem advance_Sequence {T E : Type} (i : Nat) (tws : List (Tween T E))
    (ce : Option E) (tgt : T) (dur : Nat) :
    advance (.Sequence i tws ce) tgt dur =
      ⟨.Sequence (i + (advSeqAux (tws.drop i) tgt dur).1.moved)
        (tws.take i ++ (advSeqAux (tws.drop i) tgt dur).1.tweens) ce,
        (advSeqAux (tws.drop i) tgt dur).1.target,
        (advSeqAux (tws.drop i) tgt dur).1.events ++
          doneEmits (advSeqAux (tws.drop i) tgt dur).1.progress ce,
        (advSeqAux (tws.drop i) tgt dur).1.warns,
        (advSeqAux (tws.drop i) tgt dur).1.progress⟩ := by
  simp only [advance, advAux]

theorem advance_Parallel {T E : Type} (tws : List (Tween T E)) (ce : Option E)
    (tgt : T) (dur : Nat) :
    advance (.Parallel tws ce) tgt dur =
      ⟨.Parallel (advParAux tws tgt dur).1.tweens ce,
        (advParAux tws tgt dur).1.target,
        (advParAux tws tgt dur).1.events ++
          doneEmits ((advParAux tws tgt dur).1.results.foldl combine (.done dur)) ce,
        (advParAux tws tgt dur).1.warns,
        (advParAux tws tgt dur).1.results.foldl combine (.done dur)⟩ := by
  simp only [advance, advAux]

theorem advRepeat_done {T E : Type} {c : Tween T E} {times : RepeatTimes}
    {count : Nat} (ce : Option E) (tgt : T) (dur : Nat)
    (hdn : repeatDone times count = true) :
    (advRepeat c times count ce tgt dur).1 =
      ⟨.Repeat c times count ce, tgt, emits ce, 0, .done dur⟩ := by
  rw [advRepeat]
  rw [dif_pos hdn]

theorem advRepeat_running {T E : Type} {c : Tween T E} {times : RepeatTimes}
    {count : Nat} (ce : Option E) {tgt : T} {dur : Nat}
    (hdn : ¬ repeatDone times count = true)
    (hrun : (advance c tgt dur).progress = .running) :
    (advRepeat c times count ce tgt dur).1 =
      ⟨.Repeat (advance c tgt dur).tween times count ce, (advance c tgt dur).target,
        (advance c tgt dur).events, (advance c tgt dur).warns, .running⟩ := by
  rw [advRepeat]
  rw [dif_neg hdn]
  rcases hsk : advAux c tgt dur with ⟨⟨c2, tgt2, evs, w, pr⟩, hp⟩
  have hv : advance c tgt dur = ⟨c2, tgt2, evs, w, pr⟩ := by rw [advance, hsk]
  rw [hv] at hrun
  simp only at hrun
  subst hrun
  simp [hv]

theorem advRepeat_guard {T E : Type} {c : Tween T E} {times : RepeatTimes}
    {count : Nat} (ce : Option E) {tgt : T} {dur s : Nat}
    (hdn : ¬ repeatDone times count = true)
    (hdone : (advance c tgt dur).progress = .done s)
    (hg : dur ≤ s ∧ times = .Infinite) :
    (advRepeat c times count ce tgt dur).1 =
      ⟨.Repeat (advance c tgt dur).tween times (count + 1) ce,
        (advance c tgt dur).target, (advance c tgt dur).events,
        (advance c tgt dur).warns + 1, .running⟩ := by
  rw [advRepeat]
  rw [dif_neg hdn]
  rcases hsk : advAux c tgt dur with ⟨⟨c2, tgt2, evs, w, pr⟩, hp⟩
  have hv : advance c tgt dur = ⟨c2, tgt2, evs, w, pr⟩ := by rw [advance, hsk]
  rw [hv] at hdone
  simp only at hdone
  subst hdone
  simp only
  rw [dif_pos hg]
  simp [hv]

theorem advRepeat_loop {T E : Type} {c : Tween T E} {times : RepeatTimes}
    {count : Nat} (ce : Option E) {tgt : T} {dur s : Nat}
    (hdn : ¬ repeatDone times count = true)
    (hdone : (advance c tgt dur).progress = .done s)
    (hg : ¬ (dur ≤ s ∧ times = .Infinite)) :
    (advRepeat c times count ce tgt dur).1 =
      ⟨(advRepeat (reset (advance c tgt dur).tween) times (count + 1) ce
          (advance c tgt dur).target s).1.tween,
        (advRepeat (reset (advance c tgt dur).tween) times (count + 1) ce
          (advance c tgt dur).target s).1.target,
        (advance c tgt dur).events ++
          (advRepeat (reset (advance c tgt dur).tween) times (count + 1) ce
            (advance c tgt dur).target s).1.events,
        (advance c tgt dur).warns +
          (advRepeat (reset (advance c tgt dur).tween) times (count + 1) ce
            (advance c tgt dur).target s).1.warns,
        (advRepeat (reset (advance c tgt dur).tween) times (count + 1) ce
          (advance c tgt dur).target s).1.progress⟩ := by
  rw [advRepeat]
  rw [dif_neg hdn]
  rcases hsk : advAux c tgt dur with ⟨⟨c2, tgt2, evs, w, pr⟩, hp⟩
  have hv : advance c tgt dur = ⟨c2, tgt2, evs, w, pr⟩ := by rw [advance, hsk]
  rw [hv] at hdone
  simp only at hdone
  subst hdone
  simp only
  rw [dif_neg hg]
  have ht : (advance c tgt dur).tween = c2 := by rw [hv]
  have hg2 : (advance c tgt dur).target = tgt2 := by rw [hv]
  have he : (advance c tgt dur).events = evs := by rw [hv]
  have hw : (advance c tgt dur).warns = w := by rw [hv]
  rw [ht, hg2, he, hw]

theorem advSeqAux_nil {T E : Type} (tgt : T) (dur : Nat) :
    (advSeqAux ([] : List (Tween T E)) tgt dur).1 = ⟨[], tgt, [], 0, 0, .done dur⟩ := by
  rw [advSeqAux]

theorem advSeqAux_cons_done {T E : Type} {c : Tween T E} {cs : List (Tween T E)}
    {tgt : T} {dur s : Nat} (hdone : (advance c tgt dur).progress = .done s) :
    (advSeqAux (c :: cs) tgt dur).1 =
      ⟨(advance c tgt dur).tween ::
          (advSeqAux cs (advance c tgt dur).target s).1.tweens,
        (advSeqAux cs (advance c tgt dur).target s).1.target,
        (advance c tgt dur).events ++
          (advSeqAux cs (advance c tgt dur).target s).1.events,
        (advSeqAux cs (advance c tgt dur).target s).1.moved + 1,
        (advance c tgt dur).warns +
          (advSeqAux cs (advance c tgt dur).target s).1.warns,
        (advSeqAux cs (advance c tgt dur).target s).1.progress⟩ := by
  rw [advSeqAux]
  rcases hsk : advAux c tgt dur with ⟨⟨c2, tgt2, evs, w, pr⟩, hp⟩
  have hv : advance c tgt dur = ⟨c2, tgt2, evs, w, pr⟩ := by rw [advance, hsk]
  rw [hv] at hdone
  simp only at hdone
  subst hdone
  have ht : (advance c tgt dur).tween = c2 := by rw [hv]
  have hg2 : (advance c tgt dur).target = tgt2 := by rw [hv]
  have he : (advance c tgt dur).events = evs := by rw [hv]
  have hw : (advance c tgt dur).warns = w := by rw [hv]
  rw [ht, hg2, he, hw]

theorem advSeqAux_cons_running {T E : Type} {c : Tween T E} {cs : List (Tween T E)}
    {tgt : T} {dur : Nat} (hrun : (advance c tgt dur).progress = .running) :
    (advSeqAux (c :: cs) tgt dur).1 =
      ⟨(advance c tgt dur).tween :: cs, (advance c tgt dur).target,
        (advance c tgt dur).events, 0, (advance c tgt dur).warns, .running⟩ := by
  rw [advSeqAux]
  rcases hsk : advAux c tgt dur with ⟨⟨c2, tgt2, evs, w, pr⟩, hp⟩
  have hv : advance c tgt dur = ⟨c2, tgt2, evs, w, pr⟩ := by rw [advance, hsk]
  rw [hv] at hrun
  simp only at hrun
  subst hrun
  simp [hv]

theorem advParAux_nil {T E : Type} (tgt : T) (dur : Nat) :
    (advParAux ([] : List (Tween T E)) tgt dur).1 = ⟨[], tgt, [], 0, []⟩ := by
  rw [advParAux]

theorem advParAux_cons {T E : Type} (c : Tween T E) (cs : List (Tween T E))
    (tgt : T) (dur : Nat) :
    (advParAux (c :: cs) tgt dur).1 =
      ⟨(advance c tgt dur).tween ::
          (advParAux cs (advance c tgt dur).target dur).1.tweens,
        (advParAux cs (advance c tgt dur).target dur).1.target,
        (advance c tgt dur).events ++
          (advParAux cs (advance c tgt dur).target dur).1.events,
        (advance c tgt dur).warns +
          (advParAux cs (advance c tgt dur).target dur).1.warns,
        (advance c tgt dur).progress ::
          (advParAux cs (advance c tgt dur).target dur).1.results⟩ := by
  rw [advParAux]
  rfl


mutual
/-- `advance` and `skip` perform identical clock/cursor/counter updates
and report identical progress and warnings; `advance` additionally
touches the target and emits events. -/
theorem adv_skip_agree {T E : Type} (t : Tween T E) (tgt : T) (dur : Nat) :
    (advance t tgt dur).tween = (skip t dur).tween ∧
    (advance t tgt dur).warns = (skip t dur).warns ∧
    (advance t tgt dur).progress = (skip t dur).progress := by
  cases t with
  | Once d e f a ce =>
    rw [advance_Once, skip_Once]
    split <;> simp
  | Pause d e ce =>
    rw [advance_Pause, skip_Pause]
    split <;> simp
  | Repeat c times count ce =>
    rw [advance_Repeat, skip_Repeat]
    exact advRepeat_skipRepeat c times count ce tgt dur
  | Sequence i tws ce =>
    rw [advance_Sequence, skip_Sequence]
    have h := advSeq_skipSeq (tws.drop i) tgt dur
    simp [h.1, h.2.1, h.2.2.1, h.2.2.2]
  | Parallel tws ce =>
    rw [advance_Parallel, skip_Parallel]
    have h := advPar_skipPar tws tgt dur
    simp [h.1, h.2.1, h.2.2]
termination_by (2 * tsize t, 0)
decreasing_by
  all_goals simp_wf
  all_goals apply Prod.Lex.left
  all_goals first
    | omega
    | exact measure_seq_drop _ _
    | (simp only [tsize_Sequence, tsize_Repeat, tsize_Parallel];
       first | omega | exact measure_seq_drop _ _)
    | (simp; omega)

/-- The `Repeat` loops of `advance` and `skip` agree on state, warnings
and progress. -/
theorem advRepeat_skipRepeat {T E : Type} (c : Tween T E) (times : RepeatTimes)
    (count : Nat) (ce : Option E) (tgt : T) (dur : Nat) :
    (advRepeat c times count ce tgt dur).1.tween = (skipRepeat c times count ce dur).1.tween ∧
    (advRepeat c times count ce tgt dur).1.warns = (skipRepeat c times count ce dur).1.warns ∧
    (advRepeat c times count ce tgt dur).1.progress = (skipRepeat c times count ce dur).1.progress := by
  by_cases hdn : repeatDone times count = true
  · rw [advRepeat_done ce tgt dur hdn, skipRepeat_done ce dur hdn]
    simp
  · have hcs := adv_skip_agree c tgt dur
    cases hpr : (advance c tgt dur).progress with
    | running =>
      have hpr2 : (skip c dur).progress = .running := by rw [← hcs.2.2, hpr]
      rw [advRepeat_running ce hdn hpr, skipRepeat_running ce hdn hpr2]
      simp [hcs.1, hcs.2.1]
    | done s =>
      have hpr2 : (skip c dur).progress = .done s := by rw [← hcs.2.2, hpr]
      by_cases hg : dur ≤ s ∧ times = .Infinite
      · rw [advRepeat_guard ce hdn hpr hg, skipRepeat_guard ce hdn hpr2 hg]
        simp [hcs.1, hcs.2.1]
      · rw [advRepeat_loop ce hdn hpr hg, skipRepeat_loop ce hdn hpr2 hg]
        rw [hcs.1, hcs.2.1]
        have hrec := advRepeat_skipRepeat (reset (skip c dur).tween) times
          (count + 1) ce (advance c tgt dur).target s
        simp [hrec.1, hrec.2.1, hrec.2.2]
termination_by (2 * tsize c + 1, loopM times count dur)
decreasing_by
  · apply Prod.Lex.left; omega
  · have h3 : 2 * tsize (reset (skip c dur).tween) + 1 = 2 * tsize c + 1 := by
      rw [tsize_reset, tsize_skip]
    rw [h3]
    exact Prod.Lex.right _ (loopM_dec times count dur s hdn hg)

/-- The `Sequence` while-loops of `advance` and `skip` agree on the
updated children, cursor increment, warnings and progress. -/
theorem advSeq_skipSeq {T E : Type} (l : List (Tween T E)) (tgt : T) (dur : Nat) :
    (advSeqAux l tgt dur).1.tweens = (skipSeqAux l dur).1.tweens ∧
    (advSeqAux l tgt dur).1.moved = (skipSeqAux l dur).1.moved ∧
    (advSeqAux l tgt dur).1.warns = (skipSeqAux l dur).1.warns ∧
    (advSeqAux l tgt dur).1.progress = (skipSeqAux l dur).1.progress := by
  cases l with
  | nil =>
    rw [advSeqAux_nil, skipSeqAux_nil]
    simp
  | cons c cs =>
    have hcs := adv_skip_agree c tgt dur
    cases hpr : (advance c tgt dur).progress with
    | running =>
      have hpr2 : (skip c dur).progress = .running := by rw [← hcs.2.2, hpr]
      rw [advSeqAux_cons_running hpr, skipSeqAux_cons_running hpr2]
      simp [hcs.1, hcs.2.1]
    | done s =>
      have hpr2 : (skip c dur).progress = .done s := by rw [← hcs.2.2, hpr]
      rw [advSeqAux_cons_done hpr, skipSeqAux_cons_done hpr2]
      have hrec := advSeq_skipSeq cs (advance c tgt dur).target s
      simp [hcs.1, hcs.2.1, hrec.1, hrec.2.1, hrec.2.2.1, hrec.2.2.2]
termination_by (2 * tsizeList l + 1, 0)
decreasing_by
  all_goals simp_wf
  all_goals apply Prod.Lex.left
  all_goals first
    | omega
    | exact tsize_pos _
    | exact measure_cons_head _ _
    | exact measure_cons_tail _ _
    | exact measure_cons_tail2 _ _
    | (simp; omega)

/-- The `Parallel` folds of `advance` and `skip` agree on the updated
children, warnings and per-child progress reports. -/
theorem advPar_skipPar {T E : Type} (l : List (Tween T E)) (tgt : T) (dur : Nat) :
    (advParAux l tgt dur).1.tweens = (skipParAux l dur).1.tweens ∧
    (advParAux l tgt dur).1.warns = (skipParAux l dur).1.warns ∧
    (advParAux l tgt dur).1.results = (skipParAux l dur).1.results := by
  cases l with
  | nil =>
    rw [advParAux_nil, skipParAux_nil]
    simp
  | cons c cs =>
    have hcs := adv_skip_agree c tgt dur
    rw [advParAux_cons, skipParAux_cons]
    have hrec := advPar_skipPar cs (advance c tgt dur).target dur
    simp [hcs.1, hcs.2.1, hcs.2.2, hrec.1, hrec.2.1, hrec.2.2]
termination_by (2 * tsizeList l + 1, 0)
decreasing_by
  all_goals simp_wf
  all_goals apply Prod.Lex.left
  all_goals first
    | omega
    | exact tsize_pos _
    | exact measure_cons_head _ _
    | exact measure_cons_tail _ _
    | exact measure_cons_tail2 _ _
    | (simp; omega)
end


/-- Builder `Tween::new` (leaf, no event). -/
def new {T : Type} (duration : Nat) (function : ℚ → ℚ) (applier : T → ℚ → T) :
    Tween T Empty :=
  .Once duration 0 function applier none

/-- Builder `Tween::new_with_event`. -/
def new_with_event {T E : Type} (duration : Nat) (function : ℚ → ℚ)
    (applier : T → ℚ → T) (completed_event : E) : Tween T E :=
  .Once duration 0 function applier (some completed_event)

/-- Builder `Tween::pause`. -/
def pause {T E : Type} (duration : Nat) : Tween T E :=
  .Pause duration 0 none

/-- Builder `Tween::repeat`. -/
def repeatTween {T E : Type} (times : RepeatTimes) (tween : Tween T E) : Tween T E :=
  .Repeat tween times 0 none

/-- Builder `Tween::sequence`. -/
def sequence {T E : Type} (tweens : List (Tween T E)) : Tween T E :=
  .Sequence 0 tweens none

/-- Builder `Tween::parallel`. -/
def parallel {T E : Type} (tweens : List (Tween T E)) : Tween T E :=
  .Parallel tweens none

/-- Builder `Tween::with_completed`: attach a completion payload to the
root node. -/
def with_completed {T E : Type} (t : Tween T E) (event : E) : Tween T E :=
  match t with
  | .Once d e f a _ => .Once d e f a (some event)
  | .Repeat c tm n _ => .Repeat c tm n (some event)
  | .Sequence i tws _ => .Sequence i tws (some event)
  | .Parallel tws _ => .Parallel tws (some event)
  | .Pause d e _ => .Pause d e (some event)

/-- Accumulated outcome of a sequence of `advance` calls. -/
structure DriveOut (T E : Type) where
  tween : Tween T E
  target : T
  events : List E
  outs : List TweenProgress

/-- Drive a tween through a list of per-tick input durations with
`advance`, collecting all events and all progress reports in order. -/
def drive {T E : Type} (t : Tween T E) (tgt : T) : List Nat → DriveOut T E
  | [] => ⟨t, tgt, [], []⟩
  | d :: ds =>
    let o := advance t tgt d
    let r := drive o.tween o.target ds
    ⟨r.tween, r.target, o.events ++ r.events, o.progress :: r.outs⟩

/-- Drive a tween through a list of per-tick input durations with
`skip`, collecting all progress reports in order. -/
def skipDrive {T E : Type} (t : Tween T E) : List Nat → Tween T E × List TweenProgress
  | [] => (t, [])
  | d :: ds =>
    let o := skip t d
    let r := skipDrive o.tween ds
    (r.1, o.progress :: r.2)

/-- C8: for every tween state and input duration, `skip` returns the
same `TweenProgress` and leaves the node (all clocks, cursors and
counters) in the same state as `advance` would from an equal state, and
reports the same warnings.  That `skip` mutates no target and emits no
event is structural: its type takes no target and returns no event list
(as in the source, where `skip` has no target or sink parameter). -/
theorem claimC8_skip_advance_equiv {T E : Type} (t : Tween T E) (tgt : T) (dur : Nat) :
    (skip t dur).tween = (advance t tgt dur).tween ∧
    (skip t dur).progress = (advance t tgt dur).progress ∧
    (skip t dur).warns = (advance t tgt dur).warns := by
  have h := adv_skip_agree t tgt dur
  exact ⟨h.1.symm, h.2.2.symm, h.2.1.symm⟩

/-- A tween node that has already completed: a leaf whose clock has
reached its duration, a `Sequence` whose cursor has passed the last
child, a `Parallel` all of whose children are complete, or a `Repeat`
whose policy reports done. -/
inductive Complete {T E : Type} : Tween T E → Prop where
  | once (d : Nat) (f : ℚ → ℚ) (a : T → ℚ → T) (ce : Option E) :
      Complete (.Once d d f a ce)
  | pause (d : Nat) (ce : Option E) : Complete (.Pause d d ce)
  | rep {c : Tween T E} (times : RepeatTimes) (count : Nat) (ce : Option E)
      (h : repeatDone times count = true) : Complete (.Repeat c times count ce)
  | seq {i : Nat} {tws : List (Tween T E)} (ce : Option E)
      (h : tws.length ≤ i) : Complete (.Sequence i tws ce)
  | par {tws : List (Tween T E)} (ce : Option E)
      (h : ∀ c ∈ tws, Complete c) : Complete (.Parallel tws ce)

theorem foldl_combine_const (dur : Nat) (l : List TweenProgress)
    (h : ∀ p ∈ l, p = .done dur) :
    l.foldl combine (.done dur) = .done dur := by
  induction l with
  | nil => rfl
  | cons p ps ih =>
    have hp : p = .done dur := h p (by simp)
    subst hp
    simp only [List.foldl_cons]
    have : combine (.done dur) (.done dur) = .done dur := by simp [combine]
    rw [this]
    exact ih (fun q hq => h q (by simp [hq]))

theorem skipParAux_pointwise {T E : Type} (tws : List (Tween T E)) (dur : Nat)
    (h : ∀ c ∈ tws, skip c dur = ⟨c, 0, .done dur⟩) :
    (skipParAux tws dur).1 = ⟨tws, 0, tws.map (fun _ => TweenProgress.done dur)⟩ := by
  induction tws with
  | nil => rw [skipParAux_nil]; simp
  | cons c cs ihl =>
    rw [skipParAux_cons]
    rw [h c (by simp), ihl (fun x hx => h x (by simp [hx]))]
    simp

/-- A complete node is a fixpoint of `skip` and immediately re-reports
`Done` with the entire input as surplus. -/
theorem skip_complete {T E : Type} {t : Tween T E} (h : Complete t) (dur : Nat) :
    skip t dur = ⟨t, 0, .done dur⟩ := by
  induction h with
  | once d f a ce =>
    rw [skip_Once]
    have : d ≤ d + dur := by omega
    simp [this]
  | pause d ce =>
    rw [skip_Pause]
    have : d ≤ d + dur := by omega
    simp [this]
  | rep times count ce hdn =>
    rw [skip_Repeat, skipRepeat_done ce dur hdn]
  | seq ce hlen =>
    rw [skip_Sequence]
    rw [List.drop_eq_nil_of_le hlen]
    rw [skipSeqAux_nil]
    simp [List.take_of_length_le hlen]
  | par ce hmem ih =>
    rw [skip_Parallel]
    rw [skipParAux_pointwise _ _ ih]
    simp only
    rw [foldl_combine_const dur _ (by simp)]


/-- C7: a node that is already complete (leaf with `elapsed = duration`,
`Sequence` with `index` at or past the end, `Parallel` with all children
complete, `Repeat` with exhausted count under policy `N`) immediately
re-reports `Done` with surplus equal to the entire input, under both
`skip` and `advance`, leaving its clock state unchanged. -/
theorem claimC7_complete_full_surplus {T E : Type} (t : Tween T E)
    (h : Complete t) (tgt : T) (dur : Nat) :
    (skip t dur).progress = .done dur ∧ (skip t dur).tween = t ∧
    (advance t tgt dur).progress = .done dur ∧ (advance t tgt dur).tween = t := by
  have hs := skip_complete h dur
  have ha := adv_skip_agree t tgt dur
  refine ⟨by rw [hs], by rw [hs], ?_, ?_⟩
  · rw [ha.2.2, hs]
  · rw [ha.1, hs]

theorem claimC7_witness :
    Complete (Tween.Parallel [Tween.Pause 2 2 none, Tween.Once 3 3 Lerp (fun (t : ℚ) v => v) none]
      (some 7) : Tween ℚ Nat) ∧
    (skip (Tween.Parallel [Tween.Pause 2 2 none, Tween.Once 3 3 Lerp (fun (t : ℚ) v => v) none]
      (some 7) : Tween ℚ Nat) 5).progress = .done 5 := by
  have hc : Complete (Tween.Parallel [Tween.Pause 2 2 none,
      Tween.Once 3 3 Lerp (fun (t : ℚ) v => v) none] (some 7) : Tween ℚ Nat) := by
    refine Complete.par _ ?_
    intro c hc
    simp at hc
    rcases hc with h | h <;> subst h
    · exact Complete.pause 2 none
    · exact Complete.once 3 Lerp _ none
  exact ⟨hc, (claimC7_complete_full_surplus _ hc 0 5).1⟩

theorem drive_fixpoint {T E : Type} {t : Tween T E} {ev : E}
    (h : ∀ (tgt : T) (d : Nat), advance t tgt d = ⟨t, tgt, [ev], 0, .done d⟩)
    (tgt : T) (ds : List Nat) :
    (drive t tgt ds).events = ds.map (fun _ => ev) ∧
    (drive t tgt ds).outs = ds.map (fun d => .done d) := by
  induction ds generalizing tgt with
  | nil => simp [drive]
  | cons d ds ih =>
    simp only [drive, h tgt d]
    have := ih tgt
    simp [this.1, this.2]

/-- C10: an empty `Sequence`, an empty `Parallel` and a `Repeat` with
policy `N(0)` are complete from construction: every `advance` or `skip`
call returns `Done` with the entire input as surplus, never touches the
target, and a completion event attached to such a node is re-emitted on
every single `advance` call. -/
theorem claimC10_degenerate_nodes {T E : Type} (tgt : T) (ev : E) (dur : Nat)
    (child : Tween T E) :
    advance (with_completed (sequence []) ev) tgt dur =
      ⟨with_completed (sequence []) ev, tgt, [ev], 0, .done dur⟩ ∧
    advance (with_completed (parallel []) ev) tgt dur =
      ⟨with_completed (parallel []) ev, tgt, [ev], 0, .done dur⟩ ∧
    advance (with_completed (repeatTween (.N 0) child) ev) tgt dur =
      ⟨with_completed (repeatTween (.N 0) child) ev, tgt, [ev], 0, .done dur⟩ ∧
    skip (sequence ([] : List (Tween T E))) dur = ⟨sequence [], 0, .done dur⟩ ∧
    skip (parallel ([] : List (Tween T E))) dur = ⟨parallel [], 0, .done dur⟩ ∧
    skip (repeatTween (.N 0) child) dur = ⟨repeatTween (.N 0) child, 0, .done dur⟩ ∧
    (∀ ds : List Nat,
      (drive (with_completed (sequence ([] : List (Tween T E))) ev) tgt ds).events =
        ds.map (fun _ => ev) ∧
      (drive (with_completed (parallel ([] : List (Tween T E))) ev) tgt ds).events =
        ds.map (fun _ => ev) ∧
      (drive (with_completed (repeatTween (.N 0) child) ev) tgt ds).events =
        ds.map (fun _ => ev)) := by
  have hdn : repeatDone (RepeatTimes.N 0) 0 = true := by simp [repeatDone]
  have h1 : ∀ (tg : T) (d : Nat), advance (with_completed (sequence []) ev) tg d =
      ⟨with_completed (sequence []) ev, tg, [ev], 0, .done d⟩ := by
    intro tg d
    simp only [with_completed, sequence]
    rw [advance_Sequence]
    simp [advSeqAux_nil, doneEmits, emits]
  have h2 : ∀ (tg : T) (d : Nat), advance (with_completed (parallel []) ev) tg d =
      ⟨with_completed (parallel []) ev, tg, [ev], 0, .done d⟩ := by
    intro tg d
    simp only [with_completed, parallel]
    rw [advance_Parallel]
    simp [advParAux_nil, doneEmits, emits]
  have h3 : ∀ (tg : T) (d : Nat), advance (with_completed (repeatTween (.N 0) child) ev) tg d =
      ⟨with_completed (repeatTween (.N 0) child) ev, tg, [ev], 0, .done d⟩ := by
    intro tg d
    simp only [with_completed, repeatTween]
    rw [advance_Repeat, advRepeat_done _ _ _ hdn]
    simp [emits]
  refine ⟨h1 tgt dur, h2 tgt dur, h3 tgt dur, ?_, ?_, ?_, ?_⟩
  · simp only [sequence]
    rw [skip_Sequence]
    simp [skipSeqAux_nil]
  · simp only [parallel]
    rw [skip_Parallel]
    simp [skipParAux_nil]
  · simp only [repeatTween]
    rw [skip_Repeat, skipRepeat_done _ _ hdn]
  · intro ds
    exact ⟨(drive_fixpoint h1 tgt ds).1, (drive_fixpoint h2 tgt ds).1,
      (drive_fixpoint h3 tgt ds).1⟩

/-- C5: under policy `Infinite`, when the child reports `Done(surplus)`
with `surplus` at least the input duration (in particular for a
zero-duration child), a single `advance` or `skip` call terminates:
the engine increments the count, reports one warning-level diagnostic,
and returns `Running`, leaving the tree usable (the model itself is a
total function, so the call provably does not loop forever). -/
theorem claimC5_infinite_guard {T E : Type} (c : Tween T E) (count : Nat)
    (ce : Option E) (tgt : T) (dur s : Nat)
    (hdone : (advance c tgt dur).progress = .done s) (hs : dur ≤ s) :
    (advance (.Repeat c .Infinite count ce) tgt dur =
      ⟨.Repeat (advance c tgt dur).tween .Infinite (count + 1) ce,
        (advance c tgt dur).target, (advance c tgt dur).events,
        (advance c tgt dur).warns + 1, .running⟩) ∧
    (skip (.Repeat c .Infinite count ce) dur =
      ⟨.Repeat (skip c dur).tween .Infinite (count + 1) ce,
        (skip c dur).warns + 1, .running⟩) ∧
    (∀ (e2 d2 : Nat), 0 < d2 →
      advance (.Repeat (.Pause 0 e2 none) .Infinite count ce) tgt d2 =
        ⟨.Repeat (.Pause 0 0 none) .Infinite (count + 1) ce, tgt, [], 1, .running⟩ ∧
      skip (Tween.Repeat (T := T) (E := E) (.Pause 0 e2 none) .Infinite count ce) d2 =
        ⟨.Repeat (.Pause 0 0 none) .Infinite (count + 1) ce, 1, .running⟩) := by
  have hdn : ¬ repeatDone RepeatTimes.Infinite count = true := by simp [repeatDone]
  have hg : dur ≤ s ∧ RepeatTimes.Infinite = RepeatTimes.Infinite := ⟨hs, rfl⟩
  have hsk : (skip c dur).progress = .done s := by
    rw [(adv_skip_agree c tgt dur).2.2] at hdone
    exact hdone
  refine ⟨?_, ?_, ?_⟩
  · rw [advance_Repeat, advRepeat_guard ce hdn hdone hg]
  · rw [skip_Repeat, skipRepeat_guard ce hdn hsk hg]
  · intro e2 d2 hpos
    have hcp : advance (Tween.Pause 0 e2 none : Tween T E) tgt d2 =
        ⟨.Pause 0 0 none, tgt, [], 0, .done (e2 + d2)⟩ := by
      rw [advance_Pause]
      simp [emits]
    have hcs : skip (Tween.Pause 0 e2 none : Tween T E) d2 =
        ⟨.Pause 0 0 none, 0, .done (e2 + d2)⟩ := by
      rw [skip_Pause]
      simp
    have hdone2 : (advance (Tween.Pause 0 e2 none : Tween T E) tgt d2).progress =
        .done (e2 + d2) := by rw [hcp]
    have hsk2 : (skip (Tween.Pause 0 e2 none : Tween T E) d2).progress =
        .done (e2 + d2) := by rw [hcs]
    have hg2 : d2 ≤ e2 + d2 ∧ RepeatTimes.Infinite = RepeatTimes.Infinite :=
      ⟨by omega, rfl⟩
    constructor
    · rw [advance_Repeat, advRepeat_guard ce hdn hdone2 hg2, hcp]
    · rw [skip_Repeat, skipRepeat_guard ce hdn hsk2 hg2, hcs]

theorem claimC5_witness :
    ((advance (Tween.Pause 0 0 none : Tween Nat Nat) 0 1).progress = .done 1 ∧ 1 ≤ 1) ∧
    advance (.Repeat (.Pause 0 0 none) .Infinite 0 none : Tween Nat Nat) 0 1 =
      ⟨.Repeat (advance (Tween.Pause 0 0 none : Tween Nat Nat) 0 1).tween .Infinite 1 none,
        (advance (Tween.Pause 0 0 none : Tween Nat Nat) 0 1).target,
        (advance (Tween.Pause 0 0 none : Tween Nat Nat) 0 1).events,
        (advance (Tween.Pause 0 0 none : Tween Nat Nat) 0 1).warns + 1, .running⟩ := by
  have h1 : (advance (Tween.Pause 0 0 none : Tween Nat Nat) 0 1).progress = .done 1 := by
    rw [advance_Pause]
    norm_num
  exact ⟨⟨h1, le_refl 1⟩,
    (claimC5_infinite_guard (Tween.Pause 0 0 none) 0 none 0 1 1 h1 (le_refl 1)).1⟩


theorem advance_Once_min {T E : Type} (d s : Nat) (f : ℚ → ℚ) (a : T → ℚ → T)
    (ce : Option E) (tgt : T) (dur : Nat) :
    advance (.Once d (min s d) f a ce) tgt dur =
      ⟨.Once d (min (s + dur) d) f a ce,
        a tgt (f (((min (s + dur) d : Nat) : ℚ) / (d : ℚ))),
        (if d ≤ s + dur then emits ce else []), 0,
        (if d ≤ s + dur then TweenProgress.done (if d ≤ s then dur else s + dur - d)
          else .running)⟩ := by
  rw [advance_Once]
  by_cases hd : d ≤ s + dur
  · have h : d ≤ min s d + dur := by omega
    have hmin : min (s + dur) d = d := by omega
    have hsur : min s d + dur - d = if d ≤ s then dur else s + dur - d := by
      split <;> omega
    rw [if_pos h, if_pos hd, if_pos hd, hmin, hsur]
  · have h : ¬ d ≤ min s d + dur := by omega
    have hmin : min s d + dur = min (s + dur) d := by omega
    rw [if_neg h, if_neg hd, if_neg hd, hmin]

theorem drive_Once {T E : Type} (d : Nat) (f : ℚ → ℚ) (a : T → ℚ → T)
    (ce : Option E) (s : Nat) (tgt : T) (ds : List Nat) :
    (drive (.Once d (min s d) f a ce) tgt ds).tween =
      .Once d (min (s + ds.sum) d) f a ce := by
  induction ds generalizing s tgt with
  | nil => simp [drive]
  | cons dd rest ih =>
    simp only [drive, advance_Once_min]
    have h2 := ih (s + dd) (a tgt (f (((min (s + dd) d : Nat) : ℚ) / (d : ℚ))))
    simp only at h2 ⊢
    rw [h2]
    have : s + dd + rest.sum = s + (dd :: rest).sum := by simp; omega
    rw [this]

/-- C1 (corrected): a `Once` leaf of positive duration `d` driven from
construction through calls of durations `ds` and then one call of
duration `Δ`: the clock accumulates and clamps (`elapsed = min Σ d`),
the applier is applied on every call — also on and after the completing
call — with `interpolator(elapsed / duration)`, which is
`interpolator 1` whenever cumulative input reaches `d`; the call
reports `Done` exactly when the clock is clamped, and the surplus is
`Σ − d` on the completing call but the entire per-call input `Δ` on
every later call (the claim instead stated `Σ − d` for all such calls,
which the code contradicts: see the counterexample). -/
theorem claimC1_once_corrected {T E : Type} (d : Nat) (f : ℚ → ℚ) (a : T → ℚ → T)
    (ce : Option E) (tgt0 tgt : T) (ds : List Nat) (dur : Nat) (hd : 0 < d) :
    (drive (.Once d 0 f a ce) tgt0 ds).tween = .Once d (min ds.sum d) f a ce ∧
    advance ((drive (.Once d 0 f a ce) tgt0 ds).tween) tgt dur =
      ⟨.Once d (min (ds.sum + dur) d) f a ce,
        a tgt (f (((min (ds.sum + dur) d : Nat) : ℚ) / (d : ℚ))),
        (if d ≤ ds.sum + dur then emits ce else []), 0,
        (if d ≤ ds.sum + dur then
          TweenProgress.done (if d ≤ ds.sum then dur else ds.sum + dur - d)
          else .running)⟩ ∧
    (d ≤ ds.sum + dur → (((min (ds.sum + dur) d : Nat) : ℚ) / (d : ℚ)) = 1) := by
  have h0 : (Tween.Once d 0 f a ce : Tween T E) = .Once d (min 0 d) f a ce := by
    have : min 0 d = 0 := by omega
    rw [this]
  have h1 : (drive (.Once d 0 f a ce) tgt0 ds).tween = .Once d (min ds.sum d) f a ce := by
    rw [h0, drive_Once]
    have : 0 + ds.sum = ds.sum := by omega
    rw [this]
  refine ⟨h1, ?_, ?_⟩
  · rw [h1, advance_Once_min]
  · intro hc
    have hmin : min (ds.sum + dur) d = d := by omega
    rw [hmin]
    have hne : (d : ℚ) ≠ 0 := by
      simp only [ne_eq, Nat.cast_eq_zero]
      omega
    exact div_self hne

/-- The claim of C1 as stated is false on the code: for a `Once` leaf of
duration 2 driven with inputs 3 and then 3, the second call reports
`Done 3` (the entire second input), not `Done (3 + 3 − 2) = Done 4` as
the claimed `surplus = Σ(inputs) − duration` formula requires. -/
theorem claimC1_counterexample :
    (drive (Tween.Once 2 0 Lerp (fun (_ : ℚ) v => v) none : Tween ℚ Nat) 0 [3, 3]).outs =
      [.done 1, .done 3] ∧
    (TweenProgress.done 3 ≠ .done (3 + 3 - 2)) := by
  constructor
  · have h1 : ∀ tg : ℚ, advance (Tween.Once 2 0 Lerp (fun (_ : ℚ) v => v) none : Tween ℚ Nat) tg 3 =
        ⟨.Once 2 2 Lerp (fun _ v => v) none, 1, [], 0, .done 1⟩ := by
      intro tg
      rw [advance_Once]
      norm_num [emits, Lerp]
    have h2 : ∀ tg : ℚ, advance (Tween.Once 2 2 Lerp (fun (_ : ℚ) v => v) none : Tween ℚ Nat) tg 3 =
        ⟨.Once 2 2 Lerp (fun _ v => v) none, 1, [], 0, .done 3⟩ := by
      intro tg
      rw [advance_Once]
      norm_num [emits, Lerp]
    simp [drive, h1, h2]
  · decide

theorem claimC1_witness :
    (0 : Nat) < 2 ∧
    (advance (Tween.Once 2 0 Lerp (fun (_ : ℚ) v => v) none : Tween ℚ Nat) 0 2).progress =
      .done 0 ∧
    (((min ((0 : Nat) + 2) 2 : Nat) : ℚ) / (2 : ℚ)) = 1 := by
  have h := claimC1_once_corrected (T := ℚ) (E := Nat) 2 Lerp (fun _ v => v) none 0 0 [] 2
    (by norm_num)
  refine ⟨by norm_num, ?_, h.2.2 (by norm_num)⟩
  have h2 := h.2.1
  simp only [drive, List.sum_nil] at h2
  rw [h2]
  norm_num

/-- C2: a `Sequence` node drives its children strictly in increasing
index order starting at the current cursor: a node whose cursor is past
the end immediately emits its completion event and reports the entire
input as surplus; a child reporting `Running` ends the call with
`Running` and an unchanged cursor; a child reporting `Done s` hands `s`
to the rest of the sequence starting at the incremented cursor; and the
cursor never exceeds the number of children. -/
theorem claimC2_sequence_semantics {T E : Type} (i : Nat) (tws : List (Tween T E))
    (ce : Option E) (tgt : T) (dur : Nat) :
    (tws.length ≤ i →
      advance (.Sequence i tws ce) tgt dur =
        ⟨.Sequence i tws ce, tgt, emits ce, 0, .done dur⟩) ∧
    (∀ (h : i < tws.length),
      ((advance tws[i] tgt dur).progress = .running →
        advance (.Sequence i tws ce) tgt dur =
          ⟨.Sequence i (tws.take i ++ (advance tws[i] tgt dur).tween :: tws.drop (i + 1)) ce,
            (advance tws[i] tgt dur).target, (advance tws[i] tgt dur).events,
            (advance tws[i] tgt dur).warns, .running⟩) ∧
      (∀ s, (advance tws[i] tgt dur).progress = .done s →
        advance (.Sequence i tws ce) tgt dur =
          ⟨(advance (.Sequence (i + 1)
              (tws.take i ++ (advance tws[i] tgt dur).tween :: tws.drop (i + 1)) ce)
              (advance tws[i] tgt dur).target s).tween,
            (advance (.Sequence (i + 1)
              (tws.take i ++ (advance tws[i] tgt dur).tween :: tws.drop (i + 1)) ce)
              (advance tws[i] tgt dur).target s).target,
            (advance tws[i] tgt dur).events ++
              (advance (.Sequence (i + 1)
                (tws.take i ++ (advance tws[i] tgt dur).tween :: tws.drop (i + 1)) ce)
                (advance tws[i] tgt dur).target s).events,
            (advance tws[i] tgt dur).warns +
              (advance (.Sequence (i + 1)
                (tws.take i ++ (advance tws[i] tgt dur).tween :: tws.drop (i + 1)) ce)
                (advance tws[i] tgt dur).target s).warns,
            (advance (.Sequence (i + 1)
              (tws.take i ++ (advance tws[i] tgt dur).tween :: tws.drop (i + 1)) ce)
              (advance tws[i] tgt dur).target s).progress⟩)) ∧
    (i ≤ tws.length →
      ∃ i2 tws2, (advance (.Sequence i tws ce) tgt dur).tween = .Sequence i2 tws2 ce ∧
        i ≤ i2 ∧ i2 ≤ tws2.length ∧ tws2.length = tws.length) := by
  refine ⟨?_, ?_, ?_⟩
  · intro hle
    rw [advance_Sequence, List.drop_eq_nil_of_le hle, advSeqAux_nil]
    simp [List.take_of_length_le hle, doneEmits]
  · intro h
    have hdrop : tws.drop i = tws[i] :: tws.drop (i + 1) := List.drop_eq_getElem_cons h
    have hlen : (tws.take i).length = i := by
      rw [List.length_take]
      omega
    constructor
    · intro hrun
      rw [advance_Sequence, hdrop, advSeqAux_cons_running hrun]
      simp [doneEmits]
    · intro s hdone
      have hL1 : (tws.take i ++ (advance tws[i] tgt dur).tween :: tws.drop (i + 1)).drop
          (i + 1) = tws.drop (i + 1) := by
        conv in (i + 1) => rw [← hlen]
        exact List.drop_append 1
      have hL2 : (tws.take i ++ (advance tws[i] tgt dur).tween :: tws.drop (i + 1)).take
          (i + 1) = tws.take i ++ [(advance tws[i] tgt dur).tween] := by
        conv in List.take (i + 1) => rw [← hlen]
        rw [List.take_append 1]
        simp
      rw [advance_Sequence, hdrop, advSeqAux_cons_done hdone]
      rw [advance_Sequence (i + 1)
        (tws.take i ++ (advance tws[i] tgt dur).tween :: tws.drop (i + 1)) ce
        (advance tws[i] tgt dur).target s]
      rw [hL1, hL2]
      simp only [AdvOut.mk.injEq, Tween.Sequence.injEq]
      refine ⟨⟨by omega, by simp⟩, by simp, by simp, by simp, by simp⟩
  · intro hle
    rw [advance_Sequence]
    refine ⟨_, _, rfl, by omega, ?_, ?_⟩
    · have hm := (advSeqAux (tws.drop i) tgt dur).2.2.2
      have hl := (advSeqAux (tws.drop i) tgt dur).2.2.1
      simp only [List.length_append, List.length_take, List.length_drop] at *
      omega
    · have hl := (advSeqAux (tws.drop i) tgt dur).2.2.1
      simp only [List.length_append, List.length_take, List.length_drop] at *
      omega


theorem claimC2_witness :
    ([(Tween.Pause 2 0 none : Tween Nat Nat)].length ≤ 1) ∧
    advance (.Sequence 1 [.Pause 2 0 none] (some 5) : Tween Nat Nat) 0 3 =
      ⟨.Sequence 1 [.Pause 2 0 none] (some 5), 0, emits (some 5), 0, .done 3⟩ := by
  exact ⟨by simp,
    (claimC2_sequence_semantics 1 [(Tween.Pause 2 0 none : Tween Nat Nat)] (some 5) 0 3).1
      (by simp)⟩

/-- Clock sanity of a tween state: every leaf satisfies
`elapsed ≤ duration` (the clamping invariant the engine maintains). -/
inductive ClampOk {T E : Type} : Tween T E → Prop where
  | once {d e : Nat} (f : ℚ → ℚ) (a : T → ℚ → T) (ce : Option E)
      (h : e ≤ d) : ClampOk (.Once d e f a ce)
  | pause {d e : Nat} (ce : Option E) (h : e ≤ d) : ClampOk (.Pause d e ce)
  | rep {c : Tween T E} (times : RepeatTimes) (count : Nat) (ce : Option E)
      (h : ClampOk c) : ClampOk (.Repeat c times count ce)
  | seq {tws : List (Tween T E)} (i : Nat) (ce : Option E)
      (h : ∀ c ∈ tws, ClampOk c) : ClampOk (.Sequence i tws ce)
  | par {tws : List (Tween T E)} (ce : Option E)
      (h : ∀ c ∈ tws, ClampOk c) : ClampOk (.Parallel tws ce)

theorem resetList_eq_map {T E : Type} (l : List (Tween T E)) :
    resetList l = l.map reset := by
  induction l with
  | nil => simp
  | cons c cs ih => simp [ih]

theorem clampOk_reset {T E : Type} {t : Tween T E} (h : ClampOk t) :
    ClampOk (reset t) := by
  induction h with
  | once f a ce hle =>
    rw [reset_Once]
    exact ClampOk.once f a ce (by omega)
  | pause ce hle =>
    rw [reset_Pause]
    exact ClampOk.pause ce (by omega)
  | rep times count ce hc ih =>
    rw [reset_Repeat]
    exact ClampOk.rep times 0 ce ih
  | seq i ce hmem ih =>
    rw [reset_Sequence]
    refine ClampOk.seq 0 ce ?_
    intro c hc
    rcases List.mem_append.mp hc with hc | hc
    · rw [resetList_eq_map] at hc
      rcases List.mem_map.mp hc with ⟨c0, hc0, rfl⟩
      exact ih c0 (List.take_subset _ _ hc0)
    · exact hmem c (List.drop_subset _ _ hc)
  | par ce hmem ih =>
    rw [reset_Parallel]
    refine ClampOk.par ce ?_
    intro c hc
    rw [resetList_eq_map] at hc
    rcases List.mem_map.mp hc with ⟨c0, hc0, rfl⟩
    exact ih c0 hc0

theorem foldl_combine_running (l : List TweenProgress) :
    l.foldl combine .running = .running := by
  induction l with
  | nil => rfl
  | cons p ps ih =>
    have : combine .running p = .running := by cases p <;> rfl
    simp only [List.foldl_cons, this, ih]

theorem foldl_combine_le (l : List TweenProgress) (a : Nat) :
    ∀ s, l.foldl combine (.done a) = .done s → s ≤ a := by
  induction l generalizing a with
  | nil =>
    intro s hs
    simp [List.foldl_nil] at hs
    omega
  | cons p ps ih =>
    intro s hs
    cases p with
    | running =>
      rw [List.foldl_cons] at hs
      have : combine (.done a) .running = .running := rfl
      rw [this, foldl_combine_running] at hs
      cases hs
    | done b =>
      rw [List.foldl_cons] at hs
      have : combine (.done a) (.done b) = .done (min a b) := rfl
      rw [this] at hs
      have := ih (min a b) s hs
      omega

mutual
/-- `skip` preserves the clamping invariant, and every `Done` surplus it
reports is bounded by the input duration. -/
theorem skip_clamp {T E : Type} (t : Tween T E) (dur : Nat) :
    (ClampOk t → ClampOk (skip t dur).tween) ∧
    (ClampOk t → ∀ s, (skip t dur).progress = .done s → s ≤ dur) := by
  suffices H : ClampOk t → ClampOk (skip t dur).tween ∧
      (∀ s, (skip t dur).progress = .done s → s ≤ dur) by
    exact ⟨fun h => (H h).1, fun h => (H h).2⟩
  intro h
  cases t with
  | Once d e f a ce =>
    cases h with
    | once _ _ _ hle =>
      rw [skip_Once]
      split
      · exact ⟨ClampOk.once f a ce (le_refl d), by
          intro s hs
          simp at hs
          omega⟩
      · exact ⟨ClampOk.once f a ce (by omega), by intro s hs; simp at hs⟩
  | Pause d e ce =>
    cases h with
    | pause _ hle =>
      rw [skip_Pause]
      split
      · exact ⟨ClampOk.pause ce (le_refl d), by
          intro s hs
          simp at hs
          omega⟩
      · exact ⟨ClampOk.pause ce (by omega), by intro s hs; simp at hs⟩
  | Repeat c times count ce =>
    cases h with
    | rep _ _ _ hc =>
      rw [skip_Repeat]
      have hrec := skipRepeat_clamp c times count ce dur
      exact ⟨hrec.1 hc, hrec.2 hc⟩
  | Sequence i tws ce =>
    cases h with
    | seq _ _ hmem =>
      rw [skip_Sequence]
      have hrec := skipSeq_clamp (tws.drop i) dur
      have hmem2 : ∀ c ∈ tws.drop i, ClampOk c :=
        fun c hc => hmem c (List.drop_subset _ _ hc)
      refine ⟨?_, hrec.2 hmem2⟩
      refine ClampOk.seq _ ce ?_
      intro c hc
      rcases List.mem_append.mp hc with hc | hc
      · exact hmem c (List.take_subset _ _ hc)
      · exact hrec.1 hmem2 c hc
  | Parallel tws ce =>
    cases h with
    | par _ hmem =>
      rw [skip_Parallel]
      have hrec := skipPar_clamp tws dur
      refine ⟨ClampOk.par ce (hrec.1 hmem), ?_⟩
      intro s hs
      exact foldl_combine_le _ dur s hs
termination_by (2 * tsize t, 0)
decreasing_by
  all_goals simp_wf
  all_goals subst_vars
  all_goals apply Prod.Lex.left
  all_goals first
    | omega
    | exact measure_seq_drop _ _
    | (simp; omega)

/-- The `Repeat` loop of `skip` preserves clamping; its `Done` surplus
is bounded by the input. -/
theorem skipRepeat_clamp {T E : Type} (c : Tween T E) (times : RepeatTimes)
    (count : Nat) (ce : Option E) (dur : Nat) :
    (ClampOk c → ClampOk (skipRepeat c times count ce dur).1.tween) ∧
    (ClampOk c → ∀ s, (skipRepeat c times count ce dur).1.progress = .done s → s ≤ dur) := by
  suffices H : ClampOk c → ClampOk (skipRepeat c times count ce dur).1.tween ∧
      (∀ s, (skipRepeat c times count ce dur).1.progress = .done s → s ≤ dur) by
    exact ⟨fun h => (H h).1, fun h => (H h).2⟩
  intro h
  by_cases hdn : repeatDone times count = true
  · rw [skipRepeat_done ce dur hdn]
    refine ⟨ClampOk.rep times count ce h, ?_⟩
    intro s hs
    simp at hs
    omega
  · have hchild := skip_clamp c dur
    cases hpr : (skip c dur).progress with
    | running =>
      rw [skipRepeat_running ce hdn hpr]
      exact ⟨ClampOk.rep times count ce (hchild.1 h), by intro s hs; simp at hs⟩
    | done s1 =>
      have hs1 : s1 ≤ dur := hchild.2 h s1 hpr
      by_cases hg : dur ≤ s1 ∧ times = .Infinite
      · rw [skipRepeat_guard ce hdn hpr hg]
        exact ⟨ClampOk.rep times (count + 1) ce (hchild.1 h), by intro s hs; simp at hs⟩
      · rw [skipRepeat_loop ce hdn hpr hg]
        have hrec := skipRepeat_clamp (reset (skip c dur).tween) times (count + 1) ce s1
        have hok : ClampOk (reset (skip c dur).tween) := clampOk_reset (hchild.1 h)
        refine ⟨hrec.1 hok, ?_⟩
        intro s hs
        simp only at hs
        have := hrec.2 hok s hs
        omega
termination_by (2 * tsize c + 1, loopM times count dur)
decreasing_by
  all_goals simp_wf
  all_goals first
    | (apply Prod.Lex.left; omega)
    | (have h3 : 2 * tsize (reset (skip c dur).tween) + 1 = 2 * tsize c + 1 := by
        rw [tsize_reset, tsize_skip]
       rw [h3]
       exact Prod.Lex.right _ (loopM_dec times count dur s1 hdn hg))

/-- The `Sequence` while-loop of `skip` preserves clamping; its `Done`
surplus is bounded by the input. -/
theorem skipSeq_clamp {T E : Type} (l : List (Tween T E)) (dur : Nat) :
    ((∀ c ∈ l, ClampOk c) → ∀ c ∈ (skipSeqAux l dur).1.tweens, ClampOk c) ∧
    ((∀ c ∈ l, ClampOk c) → ∀ s, (skipSeqAux l dur).1.progress = .done s → s ≤ dur) := by
  suffices H : (∀ c ∈ l, ClampOk c) →
      (∀ c ∈ (skipSeqAux l dur).1.tweens, ClampOk c) ∧
      (∀ s, (skipSeqAux l dur).1.progress = .done s → s ≤ dur) by
    exact ⟨fun h => (H h).1, fun h => (H h).2⟩
  intro h
  cases l with
  | nil =>
    rw [skipSeqAux_nil]
    refine ⟨by simp, ?_⟩
    intro s hs
    simp at hs
    omega
  | cons c cs =>
    have hchild := skip_clamp c dur
    have hcok : ClampOk c := h c (by simp)
    cases hpr : (skip c dur).progress with
    | running =>
      rw [skipSeqAux_cons_running hpr]
      refine ⟨?_, by intro s hs; simp at hs⟩
      intro x hx
      rcases List.mem_cons.mp hx with hx | hx
      · subst hx; exact hchild.1 hcok
      · exact h x (by simp [hx])
    | done s1 =>
      have hs1 : s1 ≤ dur := hchild.2 hcok s1 hpr
      rw [skipSeqAux_cons_done hpr]
      have hrec := skipSeq_clamp cs s1
      have htl : ∀ x ∈ cs, ClampOk x := fun x hx => h x (by simp [hx])
      refine ⟨?_, ?_⟩
      · intro x hx
        rcases List.mem_cons.mp hx with hx | hx
        · subst hx; exact hchild.1 hcok
        · exact hrec.1 htl x hx
      · intro s hs
        simp only at hs
        have := hrec.2 htl s hs
        omega
termination_by (2 * tsizeList l + 1, 0)
decreasing_by
  all_goals simp_wf
  all_goals apply Prod.Lex.left
  all_goals first
    | omega
    | exact tsize_pos _
    | exact measure_cons_head _ _
    | exact measure_cons_tail _ _
    | exact measure_cons_tail2 _ _
    | (simp; omega)

/-- The `Parallel` fold of `skip` preserves clamping; every per-child
`Done` surplus is bounded by the input. -/
theorem skipPar_clamp {T E : Type} (l : List (Tween T E)) (dur : Nat) :
    ((∀ c ∈ l, ClampOk c) → ∀ c ∈ (skipParAux l dur).1.tweens, ClampOk c) ∧
    ((∀ c ∈ l, ClampOk c) →
      ∀ p ∈ (skipParAux l dur).1.results, ∀ s, p = .done s → s ≤ dur) := by
  suffices H : (∀ c ∈ l, ClampOk c) →
      (∀ c ∈ (skipParAux l dur).1.tweens, ClampOk c) ∧
      (∀ p ∈ (skipParAux l dur).1.results, ∀ s, p = .done s → s ≤ dur) by
    exact ⟨fun h => (H h).1, fun h => (H h).2⟩
  intro h
  cases l with
  | nil =>
    rw [skipParAux_nil]
    exact ⟨by simp, by simp⟩
  | cons c cs =>
    have hchild := skip_clamp c dur
    have hcok : ClampOk c := h c (by simp)
    have hrec := skipPar_clamp cs dur
    have htl : ∀ x ∈ cs, ClampOk x := fun x hx => h x (by simp [hx])
    rw [skipParAux_cons]
    refine ⟨?_, ?_⟩
    · intro x hx
      rcases List.mem_cons.mp hx with hx | hx
      · subst hx; exact hchild.1 hcok
      · exact hrec.1 htl x hx
    · intro p hp s hs
      rcases List.mem_cons.mp hp with hp | hp
      · subst hp
        exact hchild.2 hcok s hs
      · exact hrec.2 htl p hp s hs
termination_by (2 * tsizeList l + 1, 0)
decreasing_by
  all_goals simp_wf
  all_goals apply Prod.Lex.left
  all_goals first
    | omega
    | exact tsize_pos _
    | exact measure_cons_head _ _
    | exact measure_cons_tail _ _
    | exact measure_cons_tail2 _ _
    | (simp; omega)
end


/-- Outcome of the specification-level description of `Parallel`:
children advanced one by one. -/
structure ParSpecOut (T E : Type) where
  tweens : List (Tween T E)
  target : T
  events : List E
  warns : Nat
  results : List TweenProgress

/-- Specification companion for the `Parallel` arm, following the spec
text: advance every child exactly once, in list order, each with the
same input duration, threading the target; collect every child's
progress report.  Compared below against the `Parallel` arm of
`advance`. -/
def parallelSpec {T E : Type} (dur : Nat) : List (Tween T E) → T → ParSpecOut T E
  | [], tgt => ⟨[], tgt, [], 0, []⟩
  | c :: cs, tgt =>
    let o := advance c tgt dur
    let r := parallelSpec dur cs o.target
    ⟨o.tween :: r.tweens, r.target, o.events ++ r.events, o.warns + r.warns,
      o.progress :: r.results⟩

theorem advParAux_spec {T E : Type} (l : List (Tween T E)) (tgt : T) (dur : Nat) :
    (advParAux l tgt dur).1 =
      ⟨(parallelSpec dur l tgt).tweens, (parallelSpec dur l tgt).target,
        (parallelSpec dur l tgt).events, (parallelSpec dur l tgt).warns,
        (parallelSpec dur l tgt).results⟩ := by
  induction l generalizing tgt with
  | nil =>
    rw [advParAux_nil]
    simp [parallelSpec]
  | cons c cs ih =>
    rw [advParAux_cons]
    simp [parallelSpec, ih]

theorem all_done_map (l : List TweenProgress) (h : ∀ p ∈ l, ∃ b, p = .done b) :
    ∃ bs : List Nat, l = bs.map TweenProgress.done := by
  induction l with
  | nil => exact ⟨[], rfl⟩
  | cons p ps ih =>
    rcases h p (by simp) with ⟨b, rfl⟩
    rcases ih (fun q hq => h q (by simp [hq])) with ⟨bs, rfl⟩
    exact ⟨b :: bs, rfl⟩

theorem foldl_combine_map_done (a : Nat) (bs : List Nat) :
    (bs.map TweenProgress.done).foldl combine (.done a) = .done (bs.foldl min a) := by
  induction bs generalizing a with
  | nil => rfl
  | cons b bs ih =>
    simp only [List.map_cons, List.foldl_cons]
    rw [show combine (.done a) (.done b) = .done (min a b) from rfl]
    exact ih (min a b)

theorem foldl_combine_of_running (l : List TweenProgress) (acc : TweenProgress)
    (h : ∃ p ∈ l, p = .running) : l.foldl combine acc = .running := by
  induction l generalizing acc with
  | nil => simp at h
  | cons q qs ih =>
    by_cases hq : q = .running
    · subst hq
      simp only [List.foldl_cons]
      have hr : combine acc .running = .running := by cases acc <;> rfl
      rw [hr, foldl_combine_running]
    · rcases h with ⟨p, hp, hpr⟩
      rcases List.mem_cons.mp hp with h1 | h1
      · exact absurd (h1 ▸ hpr) hq
      · simp only [List.foldl_cons]
        exact ih _ ⟨p, h1, hpr⟩

theorem foldl_min_mem (a : Nat) (bs : List Nat) :
    bs.foldl min a ∈ a :: bs ∧ ∀ b ∈ a :: bs, bs.foldl min a ≤ b := by
  induction bs generalizing a with
  | nil => simp
  | cons b bs ih =>
    have h := ih (min a b)
    simp only [List.foldl_cons]
    constructor
    · rcases List.mem_cons.mp h.1 with h1 | h1
      · rw [h1]
        rcases min_choice a b with hm | hm <;> rw [hm] <;> simp
      · simp [h1]
    · intro x hx
      have hfle : List.foldl min (min a b) bs ≤ min a b := h.2 (min a b) (by simp)
      rcases List.mem_cons.mp hx with hx | hx
      · subst hx
        omega
      · rcases List.mem_cons.mp hx with hx | hx
        · subst hx
          omega
        · exact h.2 x (by simp [hx])

/-- C3: each `advance` of a `Parallel` node advances every child exactly
once with the same input duration, in child order, with no
short-circuit (the children and their side effects are exactly those of
the one-by-one specification run `parallelSpec`); the call reports
`Done` if and only if every child reports `Done`, with surplus the
minimum of the children's surpluses (for a non-empty, clock-sane node);
the node's own completion event is emitted precisely when the folded
result is `Done`. -/
theorem claimC3_parallel_semantics {T E : Type} (tws : List (Tween T E))
    (ce : Option E) (tgt : T) (dur : Nat) :
    advance (.Parallel tws ce) tgt dur =
      ⟨.Parallel (parallelSpec dur tws tgt).tweens ce,
        (parallelSpec dur tws tgt).target,
        (parallelSpec dur tws tgt).events ++
          doneEmits ((parallelSpec dur tws tgt).results.foldl combine (.done dur)) ce,
        (parallelSpec dur tws tgt).warns,
        (parallelSpec dur tws tgt).results.foldl combine (.done dur)⟩ ∧
    ((∃ s, (advance (.Parallel tws ce) tgt dur).progress = .done s) ↔
      (∀ p ∈ (parallelSpec dur tws tgt).results, ∃ b, p = .done b)) ∧
    ((∀ c ∈ tws, ClampOk c) → tws ≠ [] →
      ∀ s, (advance (.Parallel tws ce) tgt dur).progress = .done s →
        ∃ bs : List Nat, (parallelSpec dur tws tgt).results = bs.map TweenProgress.done ∧
          s ∈ bs ∧ ∀ b ∈ bs, s ≤ b) := by
  have heq : advance (.Parallel tws ce) tgt dur =
      ⟨.Parallel (parallelSpec dur tws tgt).tweens ce,
        (parallelSpec dur tws tgt).target,
        (parallelSpec dur tws tgt).events ++
          doneEmits ((parallelSpec dur tws tgt).results.foldl combine (.done dur)) ce,
        (parallelSpec dur tws tgt).warns,
        (parallelSpec dur tws tgt).results.foldl combine (.done dur)⟩ := by
    rw [advance_Parallel, advParAux_spec]
  have hprog : (advance (.Parallel tws ce) tgt dur).progress =
      (parallelSpec dur tws tgt).results.foldl combine (.done dur) := by
    rw [heq]
  refine ⟨heq, ?_, ?_⟩
  · constructor
    · rintro ⟨s, hs⟩
      by_contra hall
      push_neg at hall
      rcases hall with ⟨p, hp, hnp⟩
      have hrun : p = .running := by
        cases p with
        | running => rfl
        | done b => exact absurd rfl (hnp b)
      rw [hprog, foldl_combine_of_running _ _ ⟨p, hp, hrun⟩] at hs
      cases hs
    · intro hall
      rcases all_done_map _ hall with ⟨bs, hbs⟩
      refine ⟨bs.foldl min dur, ?_⟩
      rw [hprog, hbs, foldl_combine_map_done]
  · intro hclamp hne s hs
    have hall : ∀ p ∈ (parallelSpec dur tws tgt).results, ∃ b, p = .done b := by
      by_contra hall
      push_neg at hall
      rcases hall with ⟨p, hp, hnp⟩
      have hrun : p = .running := by
        cases p with
        | running => rfl
        | done b => exact absurd rfl (hnp b)
      rw [hprog, foldl_combine_of_running _ _ ⟨p, hp, hrun⟩] at hs
      cases hs
    rcases all_done_map _ hall with ⟨bs, hbs⟩
    have hsval : s = bs.foldl min dur := by
      rw [hprog, hbs, foldl_combine_map_done] at hs
      cases hs
      rfl
    have hresults_skip : (parallelSpec dur tws tgt).results =
        (skipParAux tws dur).1.results := by
      have h2 := (advPar_skipPar tws tgt dur).2.2
      rw [advParAux_spec] at h2
      exact h2
    have hbound : ∀ b ∈ bs, b ≤ dur := by
      intro b hb
      have hmem : (TweenProgress.done b) ∈ (skipParAux tws dur).1.results := by
        rw [← hresults_skip, hbs]
        exact List.mem_map_of_mem _ hb
      exact (skipPar_clamp tws dur).2 hclamp _ hmem b rfl
    have hlenr : (parallelSpec dur tws tgt).results.length = tws.length := by
      have h1 := advParAux_spec tws tgt dur
      have h2 := (advParAux tws tgt dur).2.2.2
      rw [h1] at h2
      exact h2
    have hbs_ne : bs ≠ [] := by
      intro hnil
      rw [hbs, hnil] at hlenr
      simp at hlenr
      exact hne (List.length_eq_zero.mp hlenr.symm)
    have hmm := foldl_min_mem dur bs
    rcases List.mem_cons.mp hmm.1 with h1 | h1
    · rcases List.exists_mem_of_ne_nil bs hbs_ne with ⟨b0, hb0⟩
      have hle1 : bs.foldl min dur ≤ b0 := hmm.2 b0 (by simp [hb0])
      have hle2 : b0 ≤ dur := hbound b0 hb0
      have hfold : bs.foldl min dur = b0 := by omega
      refine ⟨bs, hbs, ?_, ?_⟩
      · rw [hsval, hfold]; exact hb0
      · intro b hb
        rw [hsval]
        exact hmm.2 b (by simp [hb])
    · refine ⟨bs, hbs, ?_, ?_⟩
      · rw [hsval]; exact h1
      · intro b hb
        rw [hsval]
        exact hmm.2 b (by simp [hb])

theorem claimC3_witness :
    ((∀ c ∈ [(Tween.Pause 1 0 none : Tween Nat Nat), .Pause 2 0 none], ClampOk c) ∧
      ([(Tween.Pause 1 0 none : Tween Nat Nat), .Pause 2 0 none] ≠ []) ∧
      (advance (.Parallel [(Tween.Pause 1 0 none : Tween Nat Nat), .Pause 2 0 none] none)
        0 5).progress = .done 3) ∧
    (∃ bs : List Nat, (parallelSpec 5 [(Tween.Pause 1 0 none : Tween Nat Nat), .Pause 2 0 none]
        (0 : Nat)).results = bs.map TweenProgress.done ∧ 3 ∈ bs ∧ ∀ b ∈ bs, 3 ≤ b) := by
  have hc : ∀ c ∈ [(Tween.Pause 1 0 none : Tween Nat Nat), .Pause 2 0 none], ClampOk c := by
    intro c hc
    simp at hc
    rcases hc with rfl | rfl
    · exact ClampOk.pause none (by omega)
    · exact ClampOk.pause none (by omega)
  have h1 : advance (Tween.Pause 1 0 none : Tween Nat Nat) 0 5 =
      ⟨.Pause 1 1 none, 0, [], 0, .done 4⟩ := by
    rw [advance_Pause]
    norm_num [emits]
  have h2 : advance (Tween.Pause 2 0 none : Tween Nat Nat) 0 5 =
      ⟨.Pause 2 2 none, 0, [], 0, .done 3⟩ := by
    rw [advance_Pause]
    norm_num [emits]
  have hp : (advance (.Parallel [(Tween.Pause 1 0 none : Tween Nat Nat), .Pause 2 0 none]
      none) 0 5).progress = .done 3 := by
    rw [advance_Parallel]
    simp only [advParAux_cons, advParAux_nil, h1, h2]
    rfl
  exact ⟨⟨hc, by simp, hp⟩,
    (claimC3_parallel_semantics [(Tween.Pause 1 0 none : Tween Nat Nat), .Pause 2 0 none]
      none 0 5).2.2 hc (by simp) 3 hp⟩


/-- C4: a `Repeat` node with policy `N(k)`, remaining count `c0 < k`
and a positive-duration `Once` child: when the input duration suffices
to finish the remaining `k − c0` child iterations, the call re-drives
the child, resetting it after each completion and re-supplying each
iteration's surplus as the next iteration's input, and returns `Done`
with surplus equal to all the remaining undistributed input time, with
the internal count equal to `k` and the child left in reset state. -/
theorem claimC4_repeat_n {T E : Type} (d0 e0 k c0 : Nat) (f : ℚ → ℚ) (a : T → ℚ → T)
    (ce : Option E) (tgt : T) (dur : Nat)
    (hd : 0 < d0) (he : e0 ≤ d0) (hc : c0 < k)
    (hdur : (k - c0) * d0 ≤ e0 + dur) :
    (advance (.Repeat (.Once d0 e0 f a none) (.N k) c0 ce) tgt dur).progress =
      .done (e0 + dur - (k - c0) * d0) ∧
    (advance (.Repeat (.Once d0 e0 f a none) (.N k) c0 ce) tgt dur).tween =
      .Repeat (.Once d0 0 f a none) (.N k) k ce ∧
    (advance (.Repeat (.Once d0 e0 f a none) (.N k) c0 ce) tgt dur).events = emits ce ∧
    (advance (.Repeat (.Once d0 e0 f a none) (.N k) c0 ce) tgt dur).warns = 0 := by
  have hdn : ¬ repeatDone (RepeatTimes.N k) c0 = true := by
    simp [repeatDone]
    omega
  have hmul : (k - c0) * d0 = (k - (c0 + 1)) * d0 + d0 := by
    have h2 : k - c0 = (k - (c0 + 1)) + 1 := by omega
    rw [h2, Nat.succ_mul]
  have hd0le : d0 ≤ e0 + dur := by omega
  have hchild : advance (Tween.Once d0 e0 f a none : Tween T E) tgt dur =
      ⟨.Once d0 d0 f a none, a tgt (f ((d0 : ℚ) / (d0 : ℚ))), [], 0,
        .done (e0 + dur - d0)⟩ := by
    rw [advance_Once, if_pos hd0le]
    rfl
  have hcp : (advance (Tween.Once d0 e0 f a none : Tween T E) tgt dur).progress =
      .done (e0 + dur - d0) := by rw [hchild]
  have hg : ¬ (dur ≤ e0 + dur - d0 ∧ RepeatTimes.N k = RepeatTimes.Infinite) := by
    simp
  rw [advance_Repeat, advRepeat_loop ce hdn hcp hg]
  have hrt : reset (advance (Tween.Once d0 e0 f a none : Tween T E) tgt dur).tween =
      .Once d0 0 f a none := by
    rw [hchild]
    simp only
    rw [reset_Once]
  have hev : (advance (Tween.Once d0 e0 f a none : Tween T E) tgt dur).events = [] := by
    rw [hchild]
  have hw : (advance (Tween.Once d0 e0 f a none : Tween T E) tgt dur).warns = 0 := by
    rw [hchild]
  rw [hrt, hev, hw]
  by_cases hk : k ≤ c0 + 1
  · have hk2 : c0 + 1 = k := by omega
    have hdn2 : repeatDone (RepeatTimes.N k) (c0 + 1) = true := by
      simp [repeatDone]
      omega
    rw [advRepeat_done ce _ _ hdn2]
    have hs : e0 + dur - d0 = e0 + dur - (k - c0) * d0 := by
      have : k - c0 = 1 := by omega
      rw [this]
      omega
    rw [hk2]
    simp [hs]
  · have hrec := claimC4_repeat_n d0 0 k (c0 + 1) f a ce
      (advance (Tween.Once d0 e0 f a none : Tween T E) tgt dur).target (e0 + dur - d0)
      hd (by omega) (by omega) (by omega)
    rw [advance_Repeat] at hrec
    refine ⟨?_, hrec.2.1, ?_, ?_⟩
    · rw [hrec.1]
      have : 0 + (e0 + dur - d0) - (k - (c0 + 1)) * d0 = e0 + dur - (k - c0) * d0 := by
        omega
      rw [this]
    · rw [hrec.2.2.1]
      simp
    · rw [hrec.2.2.2]
termination_by k - c0
decreasing_by
  omega

theorem claimC4_witness :
    ((0 : Nat) < 1 ∧ (0 : Nat) ≤ 1 ∧ (0 : Nat) < 2 ∧ (2 - 0) * 1 ≤ 0 + 2) ∧
    (advance (.Repeat (.Once 1 0 Lerp (fun (_ : ℚ) v => v) none) (.N 2) 0 none :
        Tween ℚ Nat) 0 2).progress = .done 0 ∧
    (advance (.Repeat (.Once 1 0 Lerp (fun (_ : ℚ) v => v) none) (.N 2) 0 none :
        Tween ℚ Nat) 0 2).tween =
      .Repeat (.Once 1 0 Lerp (fun (_ : ℚ) v => v) none) (.N 2) 2 none := by
  have h := claimC4_repeat_n (T := ℚ) (E := Nat) 1 0 2 0 Lerp (fun _ v => v) none 0 2
    (by norm_num) (by norm_num) (by norm_num) (by norm_num)
  exact ⟨⟨by norm_num, by norm_num, by norm_num, by norm_num⟩, h.1, h.2.1⟩


/-- A tween tree none of whose nodes carries a completion event. -/
inductive NoEvents {T E : Type} : Tween T E → Prop where
  | once (d e : Nat) (f : ℚ → ℚ) (a : T → ℚ → T) : NoEvents (.Once d e f a none)
  | pause (d e : Nat) : NoEvents (.Pause d e none)
  | rep {c : Tween T E} (times : RepeatTimes) (count : Nat)
      (h : NoEvents c) : NoEvents (.Repeat c times count none)
  | seq {tws : List (Tween T E)} (i : Nat)
      (h : ∀ c ∈ tws, NoEvents c) : NoEvents (.Sequence i tws none)
  | par {tws : List (Tween T E)}
      (h : ∀ c ∈ tws, NoEvents c) : NoEvents (.Parallel tws none)

theorem noEvents_reset {T E : Type} {t : Tween T E} (h : NoEvents t) :
    NoEvents (reset t) := by
  induction h with
  | once d e f a =>
    rw [reset_Once]
    exact NoEvents.once d 0 f a
  | pause d e =>
    rw [reset_Pause]
    exact NoEvents.pause d 0
  | rep times count hc ih =>
    rw [reset_Repeat]
    exact NoEvents.rep times 0 ih
  | seq i hmem ih =>
    rw [reset_Sequence]
    refine NoEvents.seq 0 ?_
    intro c hc
    rcases List.mem_append.mp hc with hc | hc
    · rw [resetList_eq_map] at hc
      rcases List.mem_map.mp hc with ⟨c0, hc0, rfl⟩
      exact ih c0 (List.take_subset _ _ hc0)
    · exact hmem c (List.drop_subset _ _ hc)
  | par hmem ih =>
    rw [reset_Parallel]
    refine NoEvents.par ?_
    intro c hc
    rw [resetList_eq_map] at hc
    rcases List.mem_map.mp hc with ⟨c0, hc0, rfl⟩
    exact ih c0 hc0

mutual
/-- Advancing an event-free tree sends no events and leaves an
event-free tree. -/
theorem adv_noEv {T E : Type} (t : Tween T E) (tgt : T) (dur : Nat) :
    (NoEvents t → (advance t tgt dur).events = []) ∧
    (NoEvents t → NoEvents (advance t tgt dur).tween) := by
  suffices H : NoEvents t →
      (advance t tgt dur).events = [] ∧ NoEvents (advance t tgt dur).tween by
    exact ⟨fun h => (H h).1, fun h => (H h).2⟩
  intro h
  cases t with
  | Once d e f a ce =>
    cases h with
    | once =>
      rw [advance_Once]
      split
      · exact ⟨rfl, NoEvents.once d d f a⟩
      · exact ⟨rfl, NoEvents.once d (e + dur) f a⟩
  | Pause d e ce =>
    cases h with
    | pause =>
      rw [advance_Pause]
      split
      · exact ⟨rfl, NoEvents.pause d d⟩
      · exact ⟨rfl, NoEvents.pause d (e + dur)⟩
  | Repeat c times count ce =>
    cases h with
    | rep _ _ hc =>
      rw [advance_Repeat]
      exact ⟨(advRepeat_noEv c times count tgt dur).1 hc,
        (advRepeat_noEv c times count tgt dur).2 hc⟩
  | Sequence i tws ce =>
    cases h with
    | seq _ hmem =>
      rw [advance_Sequence]
      have hmem2 : ∀ c ∈ tws.drop i, NoEvents c :=
        fun c hc => hmem c (List.drop_subset _ _ hc)
      have hrec := advSeq_noEv (tws.drop i) tgt dur
      refine ⟨?_, ?_⟩
      · simp only [hrec.1 hmem2, doneEmits, emits]
        split <;> rfl
      · refine NoEvents.seq _ ?_
        intro c hc
        rcases List.mem_append.mp hc with hc | hc
        · exact hmem c (List.take_subset _ _ hc)
        · exact hrec.2 hmem2 c hc
  | Parallel tws ce =>
    cases h with
    | par hmem =>
      rw [advance_Parallel]
      have hrec := advPar_noEv tws tgt dur
      refine ⟨?_, NoEvents.par (hrec.2 hmem)⟩
      simp only [hrec.1 hmem, doneEmits, emits]
      split <;> rfl
termination_by (2 * tsize t, 0)
decreasing_by
  all_goals simp_wf
  all_goals subst_vars
  all_goals apply Prod.Lex.left
  all_goals first
    | omega
    | exact measure_seq_drop _ _
    | (simp; omega)

/-- The `Repeat` loop on an event-free child with no own event sends
nothing and keeps the child event-free. -/
theorem advRepeat_noEv {T E : Type} (c : Tween T E) (times : RepeatTimes)
    (count : Nat) (tgt : T) (dur : Nat) :
    (NoEvents c → (advRepeat c times count none tgt dur).1.events = []) ∧
    (NoEvents c → NoEvents (advRepeat c times count none tgt dur).1.tween) := by
  suffices H : NoEvents c →
      (advRepeat c times count none tgt dur).1.events = [] ∧
      NoEvents (advRepeat c times count none tgt dur).1.tween by
    exact ⟨fun h => (H h).1, fun h => (H h).2⟩
  intro h
  by_cases hdn : repeatDone times count = true
  · rw [advRepeat_done none tgt dur hdn]
    exact ⟨rfl, NoEvents.rep times count h⟩
  · have hchild := adv_noEv c tgt dur
    cases hpr : (advance c tgt dur).progress with
    | running =>
      rw [advRepeat_running none hdn hpr]
      exact ⟨hchild.1 h, NoEvents.rep times count (hchild.2 h)⟩
    | done s1 =>
      by_cases hg : dur ≤ s1 ∧ times = .Infinite
      · rw [advRepeat_guard none hdn hpr hg]
        exact ⟨hchild.1 h, NoEvents.rep times (count + 1) (hchild.2 h)⟩
      · rw [advRepeat_loop none hdn hpr hg]
        have hrec := advRepeat_noEv (reset (advance c tgt dur).tween) times (count + 1)
          (advance c tgt dur).target s1
        have hok : NoEvents (reset (advance c tgt dur).tween) :=
          noEvents_reset (hchild.2 h)
        exact ⟨by simp [hchild.1 h, hrec.1 hok], hrec.2 hok⟩
termination_by (2 * tsize c + 1, loopM times count dur)
decreasing_by
  all_goals simp_wf
  all_goals first
    | (apply Prod.Lex.left; omega)
    | (have h3 : 2 * tsize (reset (advance c tgt dur).tween) + 1 = 2 * tsize c + 1 := by
        rw [tsize_reset, tsize_advance]
       rw [h3]
       exact Prod.Lex.right _ (loopM_dec times count dur s1 hdn hg))

/-- The `Sequence` while-loop on event-free children sends nothing and
keeps the children event-free. -/
theorem advSeq_noEv {T E : Type} (l : List (Tween T E)) (tgt : T) (dur : Nat) :
    ((∀ c ∈ l, NoEvents c) → (advSeqAux l tgt dur).1.events = []) ∧
    ((∀ c ∈ l, NoEvents c) → ∀ c ∈ (advSeqAux l tgt dur).1.tweens, NoEvents c) := by
  suffices H : (∀ c ∈ l, NoEvents c) →
      (advSeqAux l tgt dur).1.events = [] ∧
      (∀ c ∈ (advSeqAux l tgt dur).1.tweens, NoEvents c) by
    exact ⟨fun h => (H h).1, fun h => (H h).2⟩
  intro h
  cases l with
  | nil =>
    rw [advSeqAux_nil]
    exact ⟨rfl, by simp⟩
  | cons c cs =>
    have hchild := adv_noEv c tgt dur
    have hcok : NoEvents c := h c (by simp)
    cases hpr : (advance c tgt dur).progress with
    | running =>
      rw [advSeqAux_cons_running hpr]
      refine ⟨hchild.1 hcok, ?_⟩
      intro x hx
      rcases List.mem_cons.mp hx with hx | hx
      · subst hx; exact hchild.2 hcok
      · exact h x (by simp [hx])
    | done s1 =>
      rw [advSeqAux_cons_done hpr]
      have hrec := advSeq_noEv cs (advance c tgt dur).target s1
      have htl : ∀ x ∈ cs, NoEvents x := fun x hx => h x (by simp [hx])
      refine ⟨by simp [hchild.1 hcok, hrec.1 htl], ?_⟩
      intro x hx
      rcases List.mem_cons.mp hx with hx | hx
      · subst hx; exact hchild.2 hcok
      · exact hrec.2 htl x hx
termination_by (2 * tsizeList l + 1, 0)
decreasing_by
  all_goals simp_wf
  all_goals apply Prod.Lex.left
  all_goals first
    | omega
    | exact tsize_pos _
    | exact measure_cons_head _ _
    | exact measure_cons_tail _ _
    | exact measure_cons_tail2 _ _
    | (simp; omega)

/-- The `Parallel` fold on event-free children sends nothing and keeps
the children event-free. -/
theorem advPar_noEv {T E : Type} (l : List (Tween T E)) (tgt : T) (dur : Nat) :
    ((∀ c ∈ l, NoEvents c) → (advParAux l tgt dur).1.events = []) ∧
    ((∀ c ∈ l, NoEvents c) → ∀ c ∈ (advParAux l tgt dur).1.tweens, NoEvents c) := by
  suffices H : (∀ c ∈ l, NoEvents c) →
      (advParAux l tgt dur).1.events = [] ∧
      (∀ c ∈ (advParAux l tgt dur).1.tweens, NoEvents c) by
    exact ⟨fun h => (H h).1, fun h => (H h).2⟩
  intro h
  cases l with
  | nil =>
    rw [advParAux_nil]
    exact ⟨rfl, by simp⟩
  | cons c cs =>
    have hchild := adv_noEv c tgt dur
    have hcok : NoEvents c := h c (by simp)
    have hrec := advPar_noEv cs (advance c tgt dur).target dur
    have htl : ∀ x ∈ cs, NoEvents x := fun x hx => h x (by simp [hx])
    rw [advParAux_cons]
    refine ⟨by simp [hchild.1 hcok, hrec.1 htl], ?_⟩
    intro x hx
    rcases List.mem_cons.mp hx with hx | hx
    · subst hx; exact hchild.2 hcok
    · exact hrec.2 htl x hx
termination_by (2 * tsizeList l + 1, 0)
decreasing_by
  all_goals simp_wf
  all_goals apply Prod.Lex.left
  all_goals first
    | omega
    | exact tsize_pos _
    | exact measure_cons_head _ _
    | exact measure_cons_tail _ _
    | exact measure_cons_tail2 _ _
    | (simp; omega)
end


/-- The `Repeat` loop with an own completion payload over an event-free
child emits the payload exactly on `Done`-reporting exits, and keeps
the child event-free. -/
theorem advRepeat_topEvent {T E : Type} (c : Tween T E) (times : RepeatTimes)
    (count : Nat) (ev : E) (tgt : T) (dur : Nat) :
    (NoEvents c →
      (advRepeat c times count (some ev) tgt dur).1.events =
        doneEmits (advRepeat c times count (some ev) tgt dur).1.progress (some ev)) ∧
    (NoEvents c →
      ∃ c1 n1, NoEvents c1 ∧
        (advRepeat c times count (some ev) tgt dur).1.tween =
          .Repeat c1 times n1 (some ev)) := by
  suffices H : NoEvents c →
      ((advRepeat c times count (some ev) tgt dur).1.events =
        doneEmits (advRepeat c times count (some ev) tgt dur).1.progress (some ev)) ∧
      (∃ c1 n1, NoEvents c1 ∧
        (advRepeat c times count (some ev) tgt dur).1.tween =
          .Repeat c1 times n1 (some ev)) by
    exact ⟨fun h => (H h).1, fun h => (H h).2⟩
  intro h
  by_cases hdn : repeatDone times count = true
  · rw [advRepeat_done (some ev) tgt dur hdn]
    exact ⟨rfl, ⟨c, count, h, rfl⟩⟩
  · have hchild := adv_noEv c tgt dur
    cases hpr : (advance c tgt dur).progress with
    | running =>
      rw [advRepeat_running (some ev) hdn hpr]
      exact ⟨by simp [hchild.1 h, doneEmits],
        ⟨(advance c tgt dur).tween, count, hchild.2 h, rfl⟩⟩
    | done s1 =>
      by_cases hg : dur ≤ s1 ∧ times = .Infinite
      · rw [advRepeat_guard (some ev) hdn hpr hg]
        exact ⟨by simp [hchild.1 h, doneEmits],
          ⟨(advance c tgt dur).tween, count + 1, hchild.2 h, rfl⟩⟩
      · rw [advRepeat_loop (some ev) hdn hpr hg]
        have hok : NoEvents (reset (advance c tgt dur).tween) :=
          noEvents_reset (hchild.2 h)
        have hrec := advRepeat_topEvent (reset (advance c tgt dur).tween) times
          (count + 1) ev (advance c tgt dur).target s1
        refine ⟨by simp [hchild.1 h, hrec.1 hok], ?_⟩
        rcases hrec.2 hok with ⟨c1, n1, hc1, heq⟩
        exact ⟨c1, n1, hc1, by simp [heq]⟩
termination_by loopM times count dur
decreasing_by
  exact loopM_dec times count dur s1 hdn hg

/-- One `advance` call on an event-free tree whose root carries a
completion payload: the payload is emitted precisely when the call
reports `Done`, and the tree stays an event-free tree with the payload
at the root. -/
theorem advance_topEvent {T E : Type} (t0 : Tween T E) (ev : E) (tg : T) (d : Nat) :
    (NoEvents t0 →
      (advance (with_completed t0 ev) tg d).events =
        doneEmits (advance (with_completed t0 ev) tg d).progress (some ev)) ∧
    (NoEvents t0 →
      ∃ t1, NoEvents t1 ∧
        (advance (with_completed t0 ev) tg d).tween = with_completed t1 ev) := by
  suffices H : NoEvents t0 →
      ((advance (with_completed t0 ev) tg d).events =
        doneEmits (advance (with_completed t0 ev) tg d).progress (some ev)) ∧
      (∃ t1, NoEvents t1 ∧
        (advance (with_completed t0 ev) tg d).tween = with_completed t1 ev) by
    exact ⟨fun h => (H h).1, fun h => (H h).2⟩
  intro h
  cases h with
  | once d0 e0 f a =>
    simp only [with_completed]
    rw [advance_Once]
    split
    · exact ⟨rfl, ⟨.Once d0 d0 f a none, NoEvents.once d0 d0 f a, rfl⟩⟩
    · exact ⟨rfl, ⟨.Once d0 (e0 + d) f a none, NoEvents.once d0 (e0 + d) f a, rfl⟩⟩
  | pause d0 e0 =>
    simp only [with_completed]
    rw [advance_Pause]
    split
    · exact ⟨rfl, ⟨.Pause d0 d0 none, NoEvents.pause d0 d0, rfl⟩⟩
    · exact ⟨rfl, ⟨.Pause d0 (e0 + d) none, NoEvents.pause d0 (e0 + d), rfl⟩⟩
  | rep times count hc =>
    rename_i c
    simp only [with_completed]
    rw [advance_Repeat]
    have hre := advRepeat_topEvent c times count ev tg d
    refine ⟨hre.1 hc, ?_⟩
    rcases hre.2 hc with ⟨c1, n1, hc1, heq⟩
    exact ⟨.Repeat c1 times n1 none, NoEvents.rep times n1 hc1, by
      simp [heq, with_completed]⟩
  | seq i hmem =>
    rename_i tws
    simp only [with_completed]
    rw [advance_Sequence]
    have hmem2 : ∀ c ∈ tws.drop i, NoEvents c :=
      fun c hc => hmem c (List.drop_subset _ _ hc)
    have hrec := advSeq_noEv (tws.drop i) tg d
    refine ⟨by simp [hrec.1 hmem2], ?_⟩
    refine ⟨.Sequence (i + (advSeqAux (tws.drop i) tg d).1.moved)
      (tws.take i ++ (advSeqAux (tws.drop i) tg d).1.tweens) none, ?_, by
        simp [with_completed]⟩
    refine NoEvents.seq _ ?_
    intro c hc
    rcases List.mem_append.mp hc with hc | hc
    · exact hmem c (List.take_subset _ _ hc)
    · exact hrec.2 hmem2 c hc
  | par hmem =>
    rename_i tws
    simp only [with_completed]
    rw [advance_Parallel]
    have hrec := advPar_noEv tws tg d
    refine ⟨by simp [hrec.1 hmem], ?_⟩
    exact ⟨.Parallel (advParAux tws tg d).1.tweens none,
      NoEvents.par (hrec.2 hmem), by simp [with_completed]⟩

/-- C6 (corrected): for a node whose subnodes carry no events and whose
root carries payload `ev`, the payload is sent to the sink on precisely
the calls whose result is `Done` — once on the completing
`Running → Done` transition but again on every later call that
re-reports `Done` (the code never clears `completed_event`), and never
when the node never completes.  The "exactly once" wording of the claim
is refuted by `claimC6_counterexample`. -/
theorem claimC6_events_corrected {T E : Type} (t0 : Tween T E) (ev : E) (tgt : T)
    (ds : List Nat) (h : NoEvents t0) :
    (∀ (tg : T) (d : Nat),
      (advance (with_completed t0 ev) tg d).events =
        doneEmits (advance (with_completed t0 ev) tg d).progress (some ev)) ∧
    (drive (with_completed t0 ev) tgt ds).events =
      ((drive (with_completed t0 ev) tgt ds).outs.map
        (fun p => doneEmits p (some ev))).flatten := by
  constructor
  · intro tg d
    exact (advance_topEvent t0 ev tg d).1 h
  · induction ds generalizing t0 tgt with
    | nil => simp [drive]
    | cons d ds ih =>
      simp only [drive]
      have h1 := (advance_topEvent t0 ev tgt d).1 h
      rcases (advance_topEvent t0 ev tgt d).2 h with ⟨t1, ht1, heq⟩
      rw [heq]
      have h2 := ih t1 (advance (with_completed t0 ev) tgt d).target ht1
      simp [h1, h2]

/-- The claim of C6 as stated is false on the code: a `Pause` leaf of
duration 1 carrying event `7`, driven with inputs 2 and 2, sends the
event on both calls — the completing one and the re-reporting one —
because `completed_event` is never cleared. -/
theorem claimC6_counterexample :
    (drive (Tween.Pause 1 0 (some 7) : Tween Nat Nat) 0 [2, 2]).events = [7, 7] ∧
    (drive (Tween.Pause 1 0 (some 7) : Tween Nat Nat) 0 [2, 2]).outs =
      [.done 1, .done 2] ∧
    ([7, 7] : List Nat) ≠ [7] := by
  have h1 : advance (Tween.Pause 1 0 (some 7) : Tween Nat Nat) 0 2 =
      ⟨.Pause 1 1 (some 7), 0, [7], 0, .done 1⟩ := by
    rw [advance_Pause]
    norm_num [emits]
  have h2 : advance (Tween.Pause 1 1 (some 7) : Tween Nat Nat) 0 2 =
      ⟨.Pause 1 1 (some 7), 0, [7], 0, .done 2⟩ := by
    rw [advance_Pause]
    norm_num [emits]
  refine ⟨?_, ?_, by simp⟩ <;> simp [drive, h1, h2]

theorem claimC6_witness :
    NoEvents (Tween.Pause 1 0 none : Tween Nat Nat) ∧
    (advance (with_completed (Tween.Pause 1 0 none : Tween Nat Nat) 7) 0 2).events =
      doneEmits (advance (with_completed (Tween.Pause 1 0 none : Tween Nat Nat) 7)
        0 2).progress (some 7) := by
  have h : NoEvents (Tween.Pause 1 0 none : Tween Nat Nat) := NoEvents.pause 1 0
  exact ⟨h, (claimC6_events_corrected _ 7 0 [] h).1 0 2⟩


mutual
/-- The construction-time shape of a tween: every clock, counter and
cursor zeroed, recursively in every child. -/
def pristineOf {T E : Type} : Tween T E → Tween T E
  | .Once d _ f a ce => .Once d 0 f a ce
  | .Repeat c times _ ce => .Repeat (pristineOf c) times 0 ce
  | .Sequence _ tws ce => .Sequence 0 (pristineList tws) ce
  | .Parallel tws ce => .Parallel (pristineList tws) ce
  | .Pause d _ ce => .Pause d 0 ce
termination_by t => 2 * tsize t
decreasing_by
  all_goals simp_wf
  all_goals first
    | omega
    | exact tsize_pos _
    | exact measure_cons_head _ _
    | exact measure_cons_tail _ _
    | exact measure_cons_tail2 _ _

/-- Pointwise `pristineOf` over a child list. -/
def pristineList {T E : Type} : List (Tween T E) → List (Tween T E)
  | [] => []
  | c :: cs => pristineOf c :: pristineList cs
termination_by l => 2 * tsizeList l + 1
decreasing_by
  all_goals simp_wf
  all_goals first
    | omega
    | exact tsize_pos _
    | exact measure_cons_head _ _
    | exact measure_cons_tail _ _
    | exact measure_cons_tail2 _ _
end

@[simp] theorem pristineOf_Once {T E : Type} (d e : Nat) (f : ℚ → ℚ) (a : T → ℚ → T)
    (ce : Option E) : pristineOf (.Once d e f a ce) = .Once d 0 f a ce := by
  rw [pristineOf]

@[simp] theorem pristineOf_Repeat {T E : Type} (c : Tween T E) (times : RepeatTimes)
    (n : Nat) (ce : Option E) :
    pristineOf (.Repeat c times n ce) = .Repeat (pristineOf c) times 0 ce := by
  rw [pristineOf]

@[simp] theorem pristineOf_Sequence {T E : Type} (i : Nat) (tws : List (Tween T E))
    (ce : Option E) :
    pristineOf (.Sequence i tws ce) = .Sequence 0 (pristineList tws) ce := by
  rw [pristineOf]

@[simp] theorem pristineOf_Parallel {T E : Type} (tws : List (Tween T E))
    (ce : Option E) :
    pristineOf (.Parallel tws ce) = .Parallel (pristineList tws) ce := by
  rw [pristineOf]

@[simp] theorem pristineOf_Pause {T E : Type} (d e : Nat) (ce : Option E) :
    pristineOf (Tween.Pause (T := T) d e ce) = .Pause d 0 ce := by
  rw [pristineOf]

@[simp] theorem pristineList_nil {T E : Type} :
    pristineList ([] : List (Tween T E)) = [] := by
  rw [pristineList]

@[simp] theorem pristineList_cons {T E : Type} (c : Tween T E) (cs : List (Tween T E)) :
    pristineList (c :: cs) = pristineOf c :: pristineList cs := by
  rw [pristineList]

theorem pristineList_eq_map {T E : Type} (l : List (Tween T E)) :
    pristineList l = l.map pristineOf := by
  induction l with
  | nil => simp
  | cons c cs ih => simp [ih]

mutual
theorem pristineOf_idem {T E : Type} (t : Tween T E) :
    pristineOf (pristineOf t) = pristineOf t := by
  cases t with
  | Once d e f a ce => simp
  | Repeat c times n ce => simp [pristineOf_idem c]
  | Sequence i tws ce => simp [pristineList_idem tws]
  | Parallel tws ce => simp [pristineList_idem tws]
  | Pause d e ce => simp
termination_by 2 * tsize t
decreasing_by
  all_goals simp_wf
  all_goals first
    | omega
    | exact tsize_pos _
    | exact measure_cons_head _ _
    | exact measure_cons_tail _ _
    | exact measure_cons_tail2 _ _

theorem pristineList_idem {T E : Type} (l : List (Tween T E)) :
    pristineList (pristineList l) = pristineList l := by
  cases l with
  | nil => simp
  | cons c cs => simp [pristineOf_idem c, pristineList_idem cs]
termination_by 2 * tsizeList l + 1
decreasing_by
  all_goals simp_wf
  all_goals first
    | omega
    | exact tsize_pos _
    | exact measure_cons_head _ _
    | exact measure_cons_tail _ _
    | exact measure_cons_tail2 _ _
end

mutual
theorem reset_pristineOf {T E : Type} (t : Tween T E) :
    reset (pristineOf t) = pristineOf t := by
  cases t with
  | Once d e f a ce => simp
  | Repeat c times n ce => simp [reset_pristineOf c]
  | Sequence i tws ce => simp
  | Parallel tws ce => simp [resetList_pristineList tws]
  | Pause d e ce => simp
termination_by 2 * tsize t
decreasing_by
  all_goals simp_wf
  all_goals first
    | omega
    | exact tsize_pos _
    | exact measure_cons_head _ _
    | exact measure_cons_tail _ _
    | exact measure_cons_tail2 _ _

theorem resetList_pristineList {T E : Type} (l : List (Tween T E)) :
    resetList (pristineList l) = pristineList l := by
  cases l with
  | nil => simp
  | cons c cs => simp [reset_pristineOf c, resetList_pristineList cs]
termination_by 2 * tsizeList l + 1
decreasing_by
  all_goals simp_wf
  all_goals first
    | omega
    | exact tsize_pos _
    | exact measure_cons_head _ _
    | exact measure_cons_tail _ _
    | exact measure_cons_tail2 _ _
end

mutual
theorem pristineOf_reset {T E : Type} (t : Tween T E) :
    pristineOf (reset t) = pristineOf t := by
  cases t with
  | Once d e f a ce => simp
  | Repeat c times n ce => simp [pristineOf_reset c]
  | Sequence i tws ce =>
    simp only [reset_Sequence, pristineOf_Sequence]
    rw [pristineList_eq_map, pristineList_eq_map, List.map_append,
      ← pristineList_eq_map, pristineList_resetList (tws.take i),
      pristineList_eq_map, ← List.map_append, List.take_append_drop]
  | Parallel tws ce => simp [pristineList_resetList tws]
  | Pause d e ce => simp
termination_by 2 * tsize t
decreasing_by
  all_goals simp_wf
  all_goals first
    | omega
    | exact measure_seq_take _ _
    | exact measure_cons_head _ _
    | exact measure_cons_tail _ _
    | exact measure_cons_tail2 _ _

theorem pristineList_resetList {T E : Type} (l : List (Tween T E)) :
    pristineList (resetList l) = pristineList l := by
  cases l with
  | nil => simp
  | cons c cs => simp [pristineOf_reset c, pristineList_resetList cs]
termination_by 2 * tsizeList l + 1
decreasing_by
  all_goals simp_wf
  all_goals first
    | omega
    | exact tsize_pos _
    | exact measure_cons_head _ _
    | exact measure_cons_tail _ _
    | exact measure_cons_tail2 _ _
end


theorem pristineList_append {T E : Type} (l1 l2 : List (Tween T E)) :
    pristineList (l1 ++ l2) = pristineList l1 ++ pristineList l2 := by
  simp [pristineList_eq_map]

mutual
/-- Advancing never changes the construction-time shape of a tween. -/
theorem adv_pristine {T E : Type} (t : Tween T E) (tgt : T) (dur : Nat) :
    pristineOf (advance t tgt dur).tween = pristineOf t := by
  cases t with
  | Once d e f a ce =>
    rw [advance_Once]
    split <;> simp
  | Pause d e ce =>
    rw [advance_Pause]
    split <;> simp
  | Repeat c times count ce =>
    rw [advance_Repeat, advRepeat_pristine c times count ce tgt dur]
    simp
  | Sequence i tws ce =>
    rw [advance_Sequence]
    simp only [pristineOf_Sequence, Tween.Sequence.injEq, true_and]
    refine ⟨?_, trivial⟩
    rw [pristineList_append, advSeq_pristine (tws.drop i) tgt dur]
    rw [pristineList_eq_map, pristineList_eq_map, pristineList_eq_map,
      ← List.map_append, List.take_append_drop]
  | Parallel tws ce =>
    rw [advance_Parallel]
    simp only [pristineOf_Parallel, Tween.Parallel.injEq, true_and]
    exact ⟨advPar_pristine tws tgt dur, trivial⟩
termination_by (2 * tsize t, 0)
decreasing_by
  all_goals simp_wf
  all_goals apply Prod.Lex.left
  all_goals first
    | omega
    | exact measure_seq_drop _ _
    | (simp; omega)

/-- The `Repeat` loop never changes the construction-time shape. -/
theorem advRepeat_pristine {T E : Type} (c : Tween T E) (times : RepeatTimes)
    (count : Nat) (ce : Option E) (tgt : T) (dur : Nat) :
    pristineOf (advRepeat c times count ce tgt dur).1.tween =
      .Repeat (pristineOf c) times 0 ce := by
  by_cases hdn : repeatDone times count = true
  · rw [advRepeat_done ce tgt dur hdn]
    simp
  · cases hpr : (advance c tgt dur).progress with
    | running =>
      rw [advRepeat_running ce hdn hpr]
      simp [adv_pristine c tgt dur]
    | done s1 =>
      by_cases hg : dur ≤ s1 ∧ times = .Infinite
      · rw [advRepeat_guard ce hdn hpr hg]
        simp [adv_pristine c tgt dur]
      · rw [advRepeat_loop ce hdn hpr hg]
        simp only
        rw [advRepeat_pristine (reset (advance c tgt dur).tween) times (count + 1) ce
          (advance c tgt dur).target s1]
        rw [pristineOf_reset, adv_pristine c tgt dur]
termination_by (2 * tsize c + 1, loopM times count dur)
decreasing_by
  all_goals simp_wf
  all_goals first
    | (apply Prod.Lex.left; omega)
    | (have h3 : 2 * tsize (reset (advance c tgt dur).tween) + 1 = 2 * tsize c + 1 := by
        rw [tsize_reset, tsize_advance]
       rw [h3]
       exact Prod.Lex.right _ (loopM_dec times count dur s1 hdn hg))

/-- The `Sequence` while-loop never changes the construction-time
shapes of the children it visits. -/
theorem advSeq_pristine {T E : Type} (l : List (Tween T E)) (tgt : T) (dur : Nat) :
    pristineList (advSeqAux l tgt dur).1.tweens = pristineList l := by
  cases l with
  | nil => rw [advSeqAux_nil]
  | cons c cs =>
    cases hpr : (advance c tgt dur).progress with
    | running =>
      rw [advSeqAux_cons_running hpr]
      simp [adv_pristine c tgt dur]
    | done s1 =>
      rw [advSeqAux_cons_done hpr]
      simp only [pristineList_cons]
      rw [adv_pristine c tgt dur,
        advSeq_pristine cs (advance c tgt dur).target s1]
termination_by (2 * tsizeList l + 1, 0)
decreasing_by
  all_goals simp_wf
  all_goals apply Prod.Lex.left
  all_goals first
    | omega
    | exact tsize_pos _
    | exact measure_cons_head _ _
    | exact measure_cons_tail _ _
    | exact measure_cons_tail2 _ _
    | (simp; omega)

/-- The `Parallel` fold never changes the construction-time shapes of
the children. -/
theorem advPar_pristine {T E : Type} (l : List (Tween T E)) (tgt : T) (dur : Nat) :
    pristineList (advParAux l tgt dur).1.tweens = pristineList l := by
  cases l with
  | nil => rw [advParAux_nil]
  | cons c cs =>
    rw [advParAux_cons]
    simp only [pristineList_cons]
    rw [adv_pristine c tgt dur,
      advPar_pristine cs (advance c tgt dur).target dur]
termination_by (2 * tsizeList l + 1, 0)
decreasing_by
  all_goals simp_wf
  all_goals apply Prod.Lex.left
  all_goals first
    | omega
    | exact tsize_pos _
    | exact measure_cons_head _ _
    | exact measure_cons_tail _ _
    | exact measure_cons_tail2 _ _
    | (simp; omega)
end


/-- Reachability invariant for `reset`-correctness: each `Repeat` whose
policy reports done holds a pristine child (it was reset right after
its last completion); each `Sequence` holds reset-clean completed
children before the cursor, an arbitrary in-flight child at the cursor,
and pristine children after it. -/
inductive Inv {T E : Type} : Tween T E → Prop where
  | once (d e : Nat) (f : ℚ → ℚ) (a : T → ℚ → T) (ce : Option E) :
      Inv (.Once d e f a ce)
  | pause (d e : Nat) (ce : Option E) : Inv (.Pause d e ce)
  | rep {c : Tween T E} (times : RepeatTimes) (count : Nat) (ce : Option E)
      (h1 : Inv c) (h2 : repeatDone times count = true → pristineOf c = c) :
      Inv (.Repeat c times count ce)
  | seq {tws : List (Tween T E)} (i : Nat) (ce : Option E)
      (h1 : ∀ c ∈ tws.take i, Inv c)
      (h2 : ∀ c ∈ tws.take i, reset c = pristineOf c)
      (h3 : ∀ c ∈ tws.drop i, Inv c)
      (h4 : ∀ c ∈ tws.drop (i + 1), pristineOf c = c) :
      Inv (.Sequence i tws ce)
  | par {tws : List (Tween T E)} (ce : Option E)
      (h : ∀ c ∈ tws, Inv c) : Inv (.Parallel tws ce)

theorem tsize_le_of_mem {T E : Type} {c : Tween T E} {l : List (Tween T E)}
    (h : c ∈ l) : tsize c ≤ tsizeList l := by
  induction l with
  | nil => simp at h
  | cons x xs ih =>
    rcases List.mem_cons.mp h with h | h
    · subst h
      simp only [tsizeList_cons]
      omega
    · have := ih h
      have := tsize_pos x
      simp only [tsizeList_cons]
      omega

theorem pristineList_fix {T E : Type} {l : List (Tween T E)}
    (h : pristineList l = l) : ∀ c ∈ l, pristineOf c = c := by
  induction l with
  | nil => simp
  | cons c cs ih =>
    rw [pristineList_cons, List.cons.injEq] at h
    intro x hx
    rcases List.mem_cons.mp hx with hx | hx
    · subst hx; exact h.1
    · exact ih h.2 x hx

/-- A pristine tween satisfies the reachability invariant. -/
theorem pristine_inv {T E : Type} :
    ∀ (n : Nat) (t : Tween T E), tsize t ≤ n → pristineOf t = t → Inv t := by
  intro n
  induction n with
  | zero =>
    intro t ht
    have := tsize_pos t
    omega
  | succ n ih =>
    intro t ht hp
    cases t with
    | Once d e f a ce => exact Inv.once d e f a ce
    | Pause d e ce => exact Inv.pause d e ce
    | Repeat c times count ce =>
      rw [pristineOf_Repeat, Tween.Repeat.injEq] at hp
      have hs : tsize c ≤ n := by
        have := tsize_Repeat c times count ce
        omega
      exact Inv.rep times count ce (ih c hs hp.1) (fun _ => hp.1)
    | Sequence i tws ce =>
      rw [pristineOf_Sequence, Tween.Sequence.injEq] at hp
      have hfix := pristineList_fix hp.2.1
      have hs : ∀ c ∈ tws, tsize c ≤ n := by
        intro c hc
        have h1 := tsize_le_of_mem hc
        have := tsize_Sequence i tws ce
        omega
      refine Inv.seq i ce ?_ ?_ ?_ ?_
      · intro c hc
        have hm := List.take_subset i tws hc
        exact ih c (hs c hm) (hfix c hm)
      · intro c hc
        have hm := List.take_subset i tws hc
        rw [← hfix c hm, reset_pristineOf, pristineOf_idem]
      · intro c hc
        have hm := List.drop_subset i tws hc
        exact ih c (hs c hm) (hfix c hm)
      · intro c hc
        exact hfix c (List.drop_subset _ tws hc)
    | Parallel tws ce =>
      rw [pristineOf_Parallel, Tween.Parallel.injEq] at hp
      have hfix := pristineList_fix hp.1
      have hs : ∀ c ∈ tws, tsize c ≤ n := by
        intro c hc
        have h1 := tsize_le_of_mem hc
        have := tsize_Parallel tws ce
        omega
      exact Inv.par ce (fun c hc => ih c (hs c hc) (hfix c hc))

theorem resetList_of_rc {T E : Type} {l : List (Tween T E)}
    (h : ∀ c ∈ l, reset c = pristineOf c) : resetList l = pristineList l := by
  induction l with
  | nil => simp
  | cons c cs ih =>
    rw [resetList_cons, pristineList_cons, h c (by simp),
      ih (fun x hx => h x (by simp [hx]))]


mutual
/-- `advance` preserves the reachability invariant, and whenever a call
reports `Done` the resulting state resets to the construction-time
shape of the original tween. -/
theorem adv_inv {T E : Type} (t : Tween T E) (tgt : T) (dur : Nat) :
    (Inv t → Inv (advance t tgt dur).tween) ∧
    (Inv t → ∀ s, (advance t tgt dur).progress = .done s →
      reset (advance t tgt dur).tween = pristineOf t) := by
  suffices H : Inv t → Inv (advance t tgt dur).tween ∧
      (∀ s, (advance t tgt dur).progress = .done s →
        reset (advance t tgt dur).tween = pristineOf t) by
    exact ⟨fun h => (H h).1, fun h => (H h).2⟩
  intro h
  cases t with
  | Once d e f a ce =>
    rw [advance_Once]
    split
    · exact ⟨Inv.once d d f a ce, fun s _ => by simp⟩
    · exact ⟨Inv.once d (e + dur) f a ce, fun s hs => by simp at hs⟩
  | Pause d e ce =>
    rw [advance_Pause]
    split
    · exact ⟨Inv.pause d d ce, fun s _ => by simp⟩
    · exact ⟨Inv.pause d (e + dur) ce, fun s hs => by simp at hs⟩
  | Repeat c times count ce =>
    cases h with
    | rep _ _ _ h1 h2 =>
      rw [advance_Repeat]
      have hre := advRepeat_inv c times count ce tgt dur
      exact ⟨hre.1 h1 h2, fun s hs => by
        rw [hre.2 h1 h2 s hs]
        simp⟩
  | Sequence i tws ce =>
    cases h with
    | seq _ _ h1 h2 h3 h4 =>
      rw [advance_Sequence]
      simp only
      have hH2 : ∀ c ∈ (tws.drop i).drop 1, pristineOf c = c := by
        intro c hc
        rw [List.drop_drop] at hc
        exact h4 c (by simpa [Nat.add_comm] using hc)
      have hA := (advSeq_inv (tws.drop i) tgt dur).1 h3 hH2
      have hB := (advSeq_inv (tws.drop i) tgt dur).2.1 h3 hH2
      have hC := (advSeq_inv (tws.drop i) tgt dur).2.2.1 h3 hH2
      have hD := (advSeq_inv (tws.drop i) tgt dur).2.2.2 h3 hH2
      by_cases hi : i ≤ tws.length
      · have hlen : (tws.take i).length = i := by
          rw [List.length_take]
          omega
        have htake := @List.take_append _ (tws.take i)
          (advSeqAux (tws.drop i) tgt dur).1.tweens (advSeqAux (tws.drop i) tgt dur).1.moved
        have hdrop := @List.drop_append _ (tws.take i)
          (advSeqAux (tws.drop i) tgt dur).1.tweens (advSeqAux (tws.drop i) tgt dur).1.moved
        have hdrop1 := @List.drop_append _ (tws.take i)
          (advSeqAux (tws.drop i) tgt dur).1.tweens
          ((advSeqAux (tws.drop i) tgt dur).1.moved + 1)
        rw [hlen] at htake hdrop hdrop1
        constructor
        · refine Inv.seq _ ce ?_ ?_ ?_ ?_
          · rw [htake]
            intro c hc
            rcases List.mem_append.mp hc with hc | hc
            · exact h1 c hc
            · exact (hA c hc).1
          · rw [htake]
            intro c hc
            rcases List.mem_append.mp hc with hc | hc
            · exact h2 c hc
            · exact (hA c hc).2
          · rw [hdrop]
            exact hB
          · rw [← Nat.add_assoc] at hdrop1
            rw [hdrop1]
            exact hC
        · intro s hs
          rcases hD s hs with ⟨hmv, hrc⟩
          have hlen2 : (advSeqAux (tws.drop i) tgt dur).1.tweens.length =
              tws.length - i := by
            rw [(advSeqAux (tws.drop i) tgt dur).2.2.1, List.length_drop]
          rw [reset_Sequence]
          have hfull : (tws.take i ++ (advSeqAux (tws.drop i) tgt dur).1.tweens).length ≤
              i + (advSeqAux (tws.drop i) tgt dur).1.moved := by
            rw [List.length_append, hlen, hlen2, hmv, List.length_drop]
          rw [List.take_of_length_le hfull, List.drop_eq_nil_of_le hfull]
          have hALL : ∀ c ∈ tws.take i ++ (advSeqAux (tws.drop i) tgt dur).1.tweens,
              reset c = pristineOf c := by
            intro c hc
            rcases List.mem_append.mp hc with hc | hc
            · exact h2 c hc
            · exact hrc c hc
          rw [resetList_of_rc hALL, pristineList_append,
            advSeq_pristine (tws.drop i) tgt dur]
          rw [pristineList_eq_map, pristineList_eq_map, ← List.map_append,
            List.take_append_drop]
          simp [pristineList_eq_map]
      · have hnil : tws.drop i = [] := List.drop_eq_nil_of_le (by omega)
        have htake2 : tws.take i = tws := List.take_of_length_le (by omega)
        rw [hnil, advSeqAux_nil]
        simp only [List.append_nil, Nat.add_zero, htake2]
        constructor
        · exact Inv.seq i ce h1 h2 h3 h4
        · intro s hs
          rw [reset_Sequence, htake2]
          rw [List.drop_eq_nil_of_le (by omega : tws.length ≤ i)]
          rw [resetList_of_rc (fun c hc => h2 c (by rw [htake2]; exact hc))]
          simp [pristineList_eq_map]
  | Parallel tws ce =>
    cases h with
    | par _ hmem =>
      rw [advance_Parallel]
      simp only
      have hre := advPar_inv tws tgt dur
      constructor
      · exact Inv.par ce (hre.1 hmem)
      · intro s hs
        have hall : ∀ p ∈ (advParAux tws tgt dur).1.results, ∃ b, p = .done b := by
          by_contra hno
          push_neg at hno
          rcases hno with ⟨p, hp, hnp⟩
          have hrun : p = .running := by
            cases p with
            | running => rfl
            | done b => exact absurd rfl (hnp b)
          rw [foldl_combine_of_running _ _ ⟨p, hp, hrun⟩] at hs
          cases hs
        have hrc := hre.2 hmem hall
        rw [reset_Parallel, resetList_of_rc hrc, pristineOf_Parallel,
          advPar_pristine tws tgt dur]
termination_by (2 * tsize t, 0)
decreasing_by
  all_goals simp_wf
  all_goals subst_vars
  all_goals apply Prod.Lex.left
  all_goals first
    | omega
    | exact measure_seq_drop _ _
    | (simp; omega)

/-- The `Repeat` loop preserves the invariant; on `Done` the resulting
node resets to the construction shape of the original. -/
theorem advRepeat_inv {T E : Type} (c : Tween T E) (times : RepeatTimes)
    (count : Nat) (ce : Option E) (tgt : T) (dur : Nat) :
    (Inv c → (repeatDone times count = true → pristineOf c = c) →
      Inv (advRepeat c times count ce tgt dur).1.tween) ∧
    (Inv c → (repeatDone times count = true → pristineOf c = c) →
      ∀ s, (advRepeat c times count ce tgt dur).1.progress = .done s →
        reset (advRepeat c times count ce tgt dur).1.tween =
          .Repeat (pristineOf c) times 0 ce) := by
  suffices H : Inv c → (repeatDone times count = true → pristineOf c = c) →
      Inv (advRepeat c times count ce tgt dur).1.tween ∧
      (∀ s, (advRepeat c times count ce tgt dur).1.progress = .done s →
        reset (advRepeat c times count ce tgt dur).1.tween =
          .Repeat (pristineOf c) times 0 ce) by
    exact ⟨fun h1 h2 => (H h1 h2).1, fun h1 h2 => (H h1 h2).2⟩
  intro h1 h2
  by_cases hdn : repeatDone times count = true
  · rw [advRepeat_done ce tgt dur hdn]
    refine ⟨Inv.rep times count ce h1 h2, ?_⟩
    intro s hs
    rw [reset_Repeat]
    rw [show reset c = pristineOf c from by rw [← h2 hdn, reset_pristineOf, pristineOf_idem]]
  · have hchild := adv_inv c tgt dur
    cases hpr : (advance c tgt dur).progress with
    | running =>
      rw [advRepeat_running ce hdn hpr]
      refine ⟨Inv.rep times count ce (hchild.1 h1) (fun hd => absurd hd hdn), ?_⟩
      intro s hs
      simp at hs
    | done s1 =>
      by_cases hg : dur ≤ s1 ∧ times = .Infinite
      · rw [advRepeat_guard ce hdn hpr hg]
        refine ⟨Inv.rep times (count + 1) ce (hchild.1 h1) ?_, ?_⟩
        · intro hd
          rw [hg.2] at hd
          simp [repeatDone] at hd
        · intro s hs
          simp at hs
      · rw [advRepeat_loop ce hdn hpr hg]
        simp only
        have hrc2 : reset (advance c tgt dur).tween = pristineOf c :=
          hchild.2 h1 s1 hpr
        have hpp : pristineOf (reset (advance c tgt dur).tween) =
            reset (advance c tgt dur).tween := by
          rw [hrc2, pristineOf_idem]
        have hinv2 : Inv (reset (advance c tgt dur).tween) :=
          pristine_inv (tsize (reset (advance c tgt dur).tween)) _ (le_refl _) hpp
        have hrec := advRepeat_inv (reset (advance c tgt dur).tween) times (count + 1)
          ce (advance c tgt dur).target s1
        refine ⟨hrec.1 hinv2 (fun _ => hpp), ?_⟩
        intro s hs
        rw [hrec.2 hinv2 (fun _ => hpp) s hs]
        rw [pristineOf_reset, adv_pristine c tgt dur]
termination_by (2 * tsize c + 1, loopM times count dur)
decreasing_by
  all_goals simp_wf
  all_goals first
    | (apply Prod.Lex.left; omega)
    | (have h3 : 2 * tsize (reset (advance c tgt dur).tween) + 1 = 2 * tsize c + 1 := by
        rw [tsize_reset, tsize_advance]
       rw [h3]
       exact Prod.Lex.right _ (loopM_dec times count dur s1 hdn hg))

/-- The `Sequence` while-loop preserves the invariant along the child
list: completed children become reset-clean, the cursor child keeps the
invariant, untouched children stay pristine, and if the loop finishes
all children are reset-clean. -/
theorem advSeq_inv {T E : Type} (l : List (Tween T E)) (tgt : T) (dur : Nat) :
    ((∀ c ∈ l, Inv c) → (∀ c ∈ l.drop 1, pristineOf c = c) →
      ∀ c ∈ (advSeqAux l tgt dur).1.tweens.take (advSeqAux l tgt dur).1.moved,
        Inv c ∧ reset c = pristineOf c) ∧
    ((∀ c ∈ l, Inv c) → (∀ c ∈ l.drop 1, pristineOf c = c) →
      ∀ c ∈ (advSeqAux l tgt dur).1.tweens.drop (advSeqAux l tgt dur).1.moved, Inv c) ∧
    ((∀ c ∈ l, Inv c) → (∀ c ∈ l.drop 1, pristineOf c = c) →
      ∀ c ∈ (advSeqAux l tgt dur).1.tweens.drop ((advSeqAux l tgt dur).1.moved + 1),
        pristineOf c = c) ∧
    ((∀ c ∈ l, Inv c) → (∀ c ∈ l.drop 1, pristineOf c = c) →
      ∀ s, (advSeqAux l tgt dur).1.progress = .done s →
        (advSeqAux l tgt dur).1.moved = l.length ∧
        (∀ c ∈ (advSeqAux l tgt dur).1.tweens, reset c = pristineOf c)) := by
  suffices H : (∀ c ∈ l, Inv c) → (∀ c ∈ l.drop 1, pristineOf c = c) →
      (∀ c ∈ (advSeqAux l tgt dur).1.tweens.take (advSeqAux l tgt dur).1.moved,
        Inv c ∧ reset c = pristineOf c) ∧
      (∀ c ∈ (advSeqAux l tgt dur).1.tweens.drop (advSeqAux l tgt dur).1.moved, Inv c) ∧
      (∀ c ∈ (advSeqAux l tgt dur).1.tweens.drop ((advSeqAux l tgt dur).1.moved + 1),
        pristineOf c = c) ∧
      (∀ s, (advSeqAux l tgt dur).1.progress = .done s →
        (advSeqAux l tgt dur).1.moved = l.length ∧
        (∀ c ∈ (advSeqAux l tgt dur).1.tweens, reset c = pristineOf c)) by
    exact ⟨fun a b => (H a b).1, fun a b => (H a b).2.1, fun a b => (H a b).2.2.1,
      fun a b => (H a b).2.2.2⟩
  intro hI hP
  cases l with
  | nil =>
    rw [advSeqAux_nil]
    refine ⟨by simp, by simp, by simp, ?_⟩
    intro s hs
    exact ⟨rfl, by simp⟩
  | cons c cs =>
    have hchild := adv_inv c tgt dur
    have hcI : Inv c := hI c (by simp)
    cases hpr : (advance c tgt dur).progress with
    | running =>
      rw [advSeqAux_cons_running hpr]
      simp only [List.take_zero, List.drop_zero, List.drop_succ_cons]
      refine ⟨by simp, ?_, ?_, ?_⟩
      · intro x hx
        rcases List.mem_cons.mp hx with hx | hx
        · subst hx
          exact hchild.1 hcI
        · exact hI x (by simp [hx])
      · intro x hx
        exact hP x (by simpa using hx)
      · intro s hs
        simp at hs
    | done s1 =>
      rw [advSeqAux_cons_done hpr]
      simp only [List.take_succ_cons, List.drop_succ_cons]
      have hrcc : reset (advance c tgt dur).tween =
          pristineOf (advance c tgt dur).tween := by
        rw [hchild.2 hcI s1 hpr, adv_pristine c tgt dur]
      have htlI : ∀ x ∈ cs, Inv x := fun x hx => hI x (by simp [hx])
      have htlP : ∀ x ∈ cs.drop 1, pristineOf x = x := by
        intro x hx
        exact hP x (by simpa using List.drop_subset 1 cs hx)
      have hrec := advSeq_inv cs (advance c tgt dur).target s1
      refine ⟨?_, ?_, ?_, ?_⟩
      · intro x hx
        rcases List.mem_cons.mp hx with hx | hx
        · subst hx
          exact ⟨hchild.1 hcI, hrcc⟩
        · exact (hrec.1 htlI htlP) x hx
      · exact (hrec.2.1 htlI htlP)
      · exact (hrec.2.2.1 htlI htlP)
      · intro s hs
        rcases (hrec.2.2.2 htlI htlP) s hs with ⟨hmv, hrc⟩
        refine ⟨by simp [hmv], ?_⟩
        intro x hx
        rcases List.mem_cons.mp hx with hx | hx
        · subst hx
          exact hrcc
        · exact hrc x hx
termination_by (2 * tsizeList l + 1, 0)
decreasing_by
  all_goals simp_wf
  all_goals apply Prod.Lex.left
  all_goals first
    | omega
    | exact tsize_pos _
    | exact measure_cons_head _ _
    | exact measure_cons_tail _ _
    | exact measure_cons_tail2 _ _
    | (simp; omega)

/-- The `Parallel` fold preserves the invariant; if every child
reported `Done` this call, every updated child is reset-clean. -/
theorem advPar_inv {T E : Type} (l : List (Tween T E)) (tgt : T) (dur : Nat) :
    ((∀ c ∈ l, Inv c) → ∀ c ∈ (advParAux l tgt dur).1.tweens, Inv c) ∧
    ((∀ c ∈ l, Inv c) →
      (∀ p ∈ (advParAux l tgt dur).1.results, ∃ b, p = .done b) →
      ∀ c ∈ (advParAux l tgt dur).1.tweens, reset c = pristineOf c) := by
  suffices H : (∀ c ∈ l, Inv c) →
      (∀ c ∈ (advParAux l tgt dur).1.tweens, Inv c) ∧
      ((∀ p ∈ (advParAux l tgt dur).1.results, ∃ b, p = .done b) →
        ∀ c ∈ (advParAux l tgt dur).1.tweens, reset c = pristineOf c) by
    exact ⟨fun a => (H a).1, fun a => (H a).2⟩
  intro hI
  cases l with
  | nil =>
    rw [advParAux_nil]
    exact ⟨by simp, by simp⟩
  | cons c cs =>
    have hchild := adv_inv c tgt dur
    have hcI : Inv c := hI c (by simp)
    have htlI : ∀ x ∈ cs, Inv x := fun x hx => hI x (by simp [hx])
    have hrec := advPar_inv cs (advance c tgt dur).target dur
    rw [advParAux_cons]
    simp only
    refine ⟨?_, ?_⟩
    · intro x hx
      rcases List.mem_cons.mp hx with hx | hx
      · subst hx
        exact hchild.1 hcI
      · exact hrec.1 htlI x hx
    · intro hall x hx
      have hcd : ∃ b, (advance c tgt dur).progress = .done b :=
        hall _ (by simp)
      have htl : ∀ p ∈ (advParAux cs (advance c tgt dur).target dur).1.results,
          ∃ b, p = .done b := by
        intro p hp
        exact hall p (by simp [hp])
      rcases List.mem_cons.mp hx with hx | hx
      · subst hx
        rcases hcd with ⟨b, hb⟩
        rw [hchild.2 hcI b hb, adv_pristine c tgt dur]
      · exact hrec.2 htlI htl x hx
termination_by (2 * tsizeList l + 1, 0)
decreasing_by
  all_goals simp_wf
  all_goals apply Prod.Lex.left
  all_goals first
    | omega
    | exact tsize_pos _
    | exact measure_cons_head _ _
    | exact measure_cons_tail _ _
    | exact measure_cons_tail2 _ _
    | (simp; omega)
end


/-- Driving a tween through any list of inputs preserves the
reachability invariant and the construction-time shape. -/
theorem drive_inv {T E : Type} (t : Tween T E) (tgt : T) (ds : List Nat) :
    (Inv t → Inv (drive t tgt ds).tween) ∧
    pristineOf (drive t tgt ds).tween = pristineOf t := by
  induction ds generalizing t tgt with
  | nil => exact ⟨fun h => h, rfl⟩
  | cons d ds ih =>
    simp only [drive]
    exact ⟨fun h => (ih _ _).1 ((adv_inv t tgt d).1 h),
      by rw [(ih _ _).2, adv_pristine]⟩

/-- C9 (corrected): `reset` restores the construction-time state only
once the node has completed.  For every pristine (freshly constructed)
tween driven through any inputs, if a further `advance` call reports
`Done` then `reset` on the resulting state returns exactly the original
construction-time tween, and the reset node driven with any input
sequence from any target produces outputs identical to a freshly
constructed copy. -/
theorem claimC9_reset_corrected {T E : Type} (t0 : Tween T E) (tgt tgt2 : T)
    (ds : List Nat) (d s : Nat) (h0 : pristineOf t0 = t0)
    (hdone : (advance (drive t0 tgt ds).tween tgt2 d).progress = .done s) :
    reset (advance (drive t0 tgt ds).tween tgt2 d).tween = t0 ∧
    (∀ tgt3 ds3,
      drive (reset (advance (drive t0 tgt ds).tween tgt2 d).tween) tgt3 ds3 =
        drive t0 tgt3 ds3) := by
  have hinv0 : Inv t0 := pristine_inv (tsize t0) t0 (le_refl _) h0
  have hinv1 : Inv (drive t0 tgt ds).tween := (drive_inv t0 tgt ds).1 hinv0
  have hr := (adv_inv (drive t0 tgt ds).tween tgt2 d).2 hinv1 s hdone
  have hmain : reset (advance (drive t0 tgt ds).tween tgt2 d).tween = t0 := by
    rw [hr, (drive_inv t0 tgt ds).2, h0]
  exact ⟨hmain, fun tgt3 ds3 => by rw [hmain]⟩

/-- C9 counterexample: a `Sequence` that was partially advanced (its
cursor child holds non-zero elapsed time) is NOT restored to its
construction-time state by `reset` — `Sequence::reset` only resets the
children strictly before the cursor — and the reset node then behaves
differently from a freshly constructed copy on the same input. -/
theorem claimC9_counterexample :
    reset (skip (.Sequence 0 [.Pause 2 0 none] none : Tween Nat Nat) 1).tween ≠
      (.Sequence 0 [.Pause 2 0 none] none : Tween Nat Nat) ∧
    (skip (reset (skip (.Sequence 0 [.Pause 2 0 none] none : Tween Nat Nat) 1).tween)
        1).progress ≠
      (skip (.Sequence 0 [.Pause 2 0 none] none : Tween Nat Nat) 1).progress := by
  have hp1 : skip (.Pause 2 0 none : Tween Nat Nat) 1 = ⟨.Pause 2 1 none, 0, .running⟩ := by
    rw [skip_Pause]
    norm_num
  have hr1 : (skip (.Pause 2 0 none : Tween Nat Nat) 1).progress = .running := by
    rw [hp1]
  have hs1 : (skipSeqAux ([.Pause 2 0 none] : List (Tween Nat Nat)) 1).1 =
      ⟨[.Pause 2 1 none], 0, 0, .running⟩ := by
    rw [skipSeqAux_cons_running hr1, hp1]
  have h1 : skip (.Sequence 0 [.Pause 2 0 none] none : Tween Nat Nat) 1 =
      ⟨.Sequence 0 [.Pause 2 1 none] none, 0, .running⟩ := by
    rw [skip_Sequence]
    simp [hs1]
  have hrt : reset (skip (.Sequence 0 [.Pause 2 0 none] none : Tween Nat Nat) 1).tween =
      .Sequence 0 [.Pause 2 1 none] none := by
    rw [h1]
    simp
  have hp2 : skip (.Pause 2 1 none : Tween Nat Nat) 1 = ⟨.Pause 2 2 none, 0, .done 0⟩ := by
    rw [skip_Pause]
    norm_num
  have hd2 : (skip (.Pause 2 1 none : Tween Nat Nat) 1).progress = .done 0 := by
    rw [hp2]
  have hs2 : (skipSeqAux ([.Pause 2 1 none] : List (Tween Nat Nat)) 1).1 =
      ⟨[.Pause 2 2 none], 1, 0, .done 0⟩ := by
    rw [skipSeqAux_cons_done hd2, hp2, skipSeqAux_nil]
    rfl
  have h2 : skip (.Sequence 0 [.Pause 2 1 none] none : Tween Nat Nat) 1 =
      ⟨.Sequence 1 [.Pause 2 2 none] none, 0, .done 0⟩ := by
    rw [skip_Sequence]
    simp [hs2]
  refine ⟨?_, ?_⟩
  · rw [hrt]
    simp
  · rw [hrt, h2, h1]
    simp

/-- C9 witness: a fresh one-tick `Pause` driven past its duration
reports `Done`, and `reset` then restores the construction-time state. -/
theorem claimC9_witness :
    pristineOf (.Pause 1 0 none : Tween Nat Nat) = .Pause 1 0 none ∧
    (advance (drive (.Pause 1 0 none : Tween Nat Nat) 0 []).tween 0 2).progress =
      .done 1 ∧
    reset (advance (drive (.Pause 1 0 none : Tween Nat Nat) 0 []).tween 0 2).tween =
      .Pause 1 0 none := by
  have hp : pristineOf (.Pause 1 0 none : Tween Nat Nat) = .Pause 1 0 none := by
    rw [pristineOf_Pause]
  have hd : (advance (drive (.Pause 1 0 none : Tween Nat Nat) 0 []).tween 0 2).progress =
      .done 1 := by
    simp only [drive]
    rw [advance_Pause]
    norm_num
  exact ⟨hp, hd, (claimC9_reset_corrected (.Pause 1 0 none) 0 0 [] 2 1 hp hd).1⟩

end BeTween
